import Mathlib

/-! tinyproxy `sock.c`: a shallow embedding and its verified properties.

The C functions of `src/sock.c` are embedded as pure Lean functions over an
explicit environment:

* the socket is a list of unread bytes, with an oracle for what each
  `recv(..., MSG_PEEK)` delivers;
* the allocator is an explicit heap (live blocks), with an oracle for which
  allocation calls fail;
* `write`, `read`, `socket`, `connect` and the resolver calls are oracles too;
* the two `pthread` mutexes are modelled by an interleaving semantics over the
  lock / resolver events the functions perform.

`ssize_t` and `size_t` values are `Int` and `Nat`; no value in `readline`
exceeds `MAXIMUM_BUFFER_LENGTH + SEGMENT_LEN`, and `write` is only defined by
POSIX for counts up to `SSIZE_MAX`, so no wrap-around is involved.
-/

namespace Sock

/-! ## Bytes and constants -/

/-- A byte of the stream (a `char` seen as `unsigned char`). -/
abbrev Byte := Nat

/-- The character `'\n'`. -/
def NEWLINE : Byte := 10

/-- `#define SEGMENT_LEN (512)`. -/
def SEGMENT_LEN : Nat := 512

/-- `#define MAXIMUM_BUFFER_LENGTH (128 * 1024)`. -/
def MAXIMUM_BUFFER_LENGTH : Nat := 128 * 1024

/-- The value of `EINTR` in `<errno.h>` (Linux). -/
def EINTR : Nat := 4

/-! ## The allocator -/

/-- Modelled from the spec: the allocator behind the `safemalloc`, `safecalloc`
and `safefree` macros (declared in `utils.h`, which is not part of the
sources).  The heap is the list of live blocks; `next` is the next fresh
address and `calls` counts the allocation calls made so far. -/
structure Heap where
  live : List Nat
  next : Nat
  calls : Nat
deriving DecidableEq, Repr

/-- Modelled from the spec: `safemalloc(size)` from `utils.h` (missing).  The
call either fails, returning `NULL` (`none`), or adds one fresh block to the
heap.  `fails k` tells whether the `k`-th allocation call fails. -/
def safemalloc (fails : Nat → Bool) (h : Heap) : Option Nat × Heap :=
  if fails h.calls then
    (none, { h with calls := h.calls + 1 })
  else
    (some h.next, { live := h.next :: h.live, next := h.next + 1, calls := h.calls + 1 })

/-- Modelled from the spec: `safecalloc(nmemb, size)` from `utils.h` (missing).
It acts on the heap as `safemalloc` does; the block it returns is zeroed. -/
def safecalloc (fails : Nat → Bool) (h : Heap) : Option Nat × Heap :=
  safemalloc fails h

/-- Modelled from the spec: `safefree(ptr)` from `utils.h` (missing).  Freeing
`NULL` does nothing; freeing a block removes it from the heap. -/
def safefree (p : Option Nat) (h : Heap) : Heap :=
  match p with
  | none => h
  | some a => { h with live := h.live.erase a }

/-! ## The socket as a byte stream -/

/-- What the kernel offers to one `recv(fd, buffer, SEGMENT_LEN, MSG_PEEK)`:
either `ready n` (it has `n` bytes at hand; the call returns between 1 and
`min SEGMENT_LEN available` of them) or `error` (the call returns -1). -/
inductive PeekEv where
  | ready (n : Nat)
  | error
deriving DecidableEq, Repr

/-- The environment of one `readline` call. -/
structure Env where
  /-- The outcome offered to the `k`-th peek of the call. -/
  peek : Nat → PeekEv
  /-- Whether the peer has closed the connection after the bytes of the stream. -/
  closed : Bool
  /-- Whether the `k`-th allocation call fails. -/
  allocFails : Nat → Bool
  /-- The content of freshly allocated, uninitialised memory. -/
  junk : Nat → Byte
  /-- The error code `ENOMEMORY` (its definition is not part of the sources). -/
  ENOMEMORY : Int
  /-- The error code `EOUTRANGE` (its definition is not part of the sources). -/
  EOUTRANGE : Int

/-- `recv(fd, buffer, SEGMENT_LEN, MSG_PEEK)` on a socket whose unread bytes are
`sock`.  Returns `none` when the call blocks for ever (no byte, connection
still open); otherwise the return value and the bytes placed in `buffer`.
Nothing is removed from the socket. -/
def recv_peek (env : Env) (k : Nat) (sock : List Byte) : Option (Int × List Byte) :=
  match env.peek k with
  | .error => some (-1, [])
  | .ready n =>
    match sock with
    | [] => if env.closed then some (0, []) else none
    | _ :: _ =>
      let m := max 1 (min n (min SEGMENT_LEN sock.length))
      some ((m : Int), sock.take m)

/-- `memchr(buffer, c, n)` where `buffer` holds exactly the `n` bytes searched:
the offset of the first occurrence of `c`, or `none` (`NULL`). -/
def memchr : List Byte → Byte → Option Nat
  | [], _ => none
  | b :: bs, c => if b = c then some 0 else (memchr bs c).map (· + 1)

/-- `memcpy(dst + off, src, n)` on a buffer `dst` that has room for it. -/
def memcpy (dst : List Byte) (off : Nat) (src : List Byte) (n : Nat) : List Byte :=
  dst.take off ++ src.take n ++ dst.drop (off + n)

/-! ## `readline` -/

/-- A `struct read_lines_s`: `addr` is the block holding the struct, `data` the
block `data` points to together with the bytes stored there (`none` is `NULL`),
`len` the `len` field.  The `next` pointer is the order of the chain. -/
structure Node where
  addr : Nat
  data : Option (Nat × List Byte)
  len : Nat
deriving DecidableEq, Repr

/-- The state of the `for (;;)` loop of `readline`. -/
structure LoopSt where
  /-- The unread bytes of the socket. -/
  sock : List Byte
  heap : Heap
  /-- The nodes of the chain before `line_ptr`, from `first_line` on. -/
  done : List Node
  /-- The node `line_ptr` points to. -/
  cur : Node
  whole_buffer_len : Int
  /-- The number of `MSG_PEEK` calls made so far. -/
  peeks : Nat
deriving DecidableEq, Repr

/-- How one pass through the loop body ends. -/
inductive Ctl where
  /-- The end of the body is reached: the loop goes round again. -/
  | running
  /-- The statement `break`. -/
  | brk
  /-- The statement `goto CLEANUP`, with the value of `ret`. -/
  | cleanup (ret : Int)
  /-- The peek never returns. -/
  | blocked
deriving DecidableEq, Repr

/-- The chain from `first_line` to `line_ptr`. -/
def LoopSt.chain (st : LoopSt) : List Node := st.done ++ [st.cur]

/-- One pass through the body of the `for (;;)` loop (lines 356-396). -/
def loopBody (env : Env) (st : LoopSt) : Ctl × LoopSt :=
  match recv_peek env st.peeks st.sock with
  | none => (.blocked, { st with peeks := st.peeks + 1 })
  | some (ret, buffer) =>
    let st := { st with peeks := st.peeks + 1 }
    if ret ≤ 0 then (.cleanup ret, st)
    else
      let ptr := memchr buffer NEWLINE
      let diff : Nat :=
        match ptr with
        | some k => k + 1
        | none => ret.toNat
      let st := { st with whole_buffer_len := st.whole_buffer_len + (diff : Int) }
      if st.whole_buffer_len > (MAXIMUM_BUFFER_LENGTH : Int) then
        (.cleanup (-env.EOUTRANGE), st)
      else
        match safemalloc env.allocFails st.heap with
        | (none, h) => (.cleanup (-env.ENOMEMORY), { st with heap := h })
        | (some a, h) =>
          -- recv(fd, line_ptr->data, diff, 0): the `diff` bytes just peeked are
          -- removed from the socket and stored in the new block
          let cur : Node := { st.cur with data := some (a, st.sock.take diff), len := diff }
          let st := { st with heap := h, cur := cur, sock := st.sock.drop diff }
          if ptr.isSome then (.brk, st)
          else
            match safecalloc env.allocFails st.heap with
            | (none, h) => (.cleanup (-env.ENOMEMORY), { st with heap := h })
            | (some b, h) =>
              (.running,
                { st with heap := h, done := st.done ++ [st.cur],
                          cur := { addr := b, data := none, len := 0 } })

/-- The loop, run for at most `k` passes: the state when the loop is left, or
the state after `k` passes (with `Ctl.running`) when it has not been left yet. -/
def iterate (env : Env) : Nat → LoopSt → Ctl × LoopSt
  | 0, st => (.running, st)
  | k + 1, st =>
    match loopBody env st with
    | (.running, st1) => iterate env k st1
    | r => r

/-- The `CLEANUP` loop (lines 418-423): the data block and the struct of every
node of the chain are freed, from `first_line` on. -/
def cleanup : List Node → Heap → Heap
  | [], h => h
  | n :: ns, h => cleanup ns (safefree (some n.addr) (safefree (n.data.map Prod.fst) h))

/-- The copy loop (lines 405-413): every node's `len` bytes are copied to the
buffer at the running offset.  Returns the buffer and the final offset. -/
def copyChain : List Node → List Byte → Nat → List Byte × Nat
  | [], buf, off => (buf, off)
  | n :: ns, buf, off =>
    copyChain ns (memcpy buf off (n.data.elim [] Prod.snd) n.len) (off + n.len)

/-- What a call of `readline` leaves behind. -/
structure Result where
  /-- The return value; `none` when the call never returns (blocked in `recv`). -/
  ret : Option Int
  /-- The block stored in `*whole_buffer` and its bytes (`none`: nothing usable
  was stored). -/
  whole_buffer : Option (Nat × List Byte)
  /-- The unread bytes of the socket after the call. -/
  sock : List Byte
  heap : Heap
  /-- The number of `MSG_PEEK` calls made. -/
  peeks : Nat
deriving DecidableEq, Repr

/-- The function `readline(fd, whole_buffer)` (lines 331-426).  `fuel` bounds
the number of passes through the loop; `none` means the fuel ran out. -/
def readline (env : Env) (fuel : Nat) (sock : List Byte) (heap : Heap) : Option Result :=
  match safecalloc env.allocFails heap with
  | (none, h) =>
    some { ret := some (-env.ENOMEMORY), whole_buffer := none, sock := sock, heap := h,
           peeks := 0 }
  | (some a, h) =>
    let st0 : LoopSt :=
      { sock := sock, heap := h, done := [], cur := { addr := a, data := none, len := 0 },
        whole_buffer_len := 0, peeks := 0 }
    match iterate env fuel st0 with
    | (.running, _) => none
    | (.blocked, st) =>
      some { ret := none, whole_buffer := none, sock := st.sock, heap := st.heap,
             peeks := st.peeks }
    | (.cleanup ret, st) =>
      some { ret := some ret, whole_buffer := none, sock := st.sock,
             heap := cleanup st.chain st.heap, peeks := st.peeks }
    | (.brk, st) =>
      match safemalloc env.allocFails st.heap with
      | (none, h) =>
        -- `return -ENOMEMORY;` (line 401): the CLEANUP loop is not run
        some { ret := some (-env.ENOMEMORY), whole_buffer := none, sock := st.sock, heap := h,
               peeks := st.peeks }
      | (some w, h) =>
        let n := st.whole_buffer_len.toNat
        let buf0 := (List.range (n + 1)).map env.junk
        let buf1 := buf0.set n 0
        let (buf, len) := copyChain st.chain buf1 0
        some { ret := some (len : Int), whole_buffer := some (w, buf), sock := st.sock,
               heap := cleanup st.chain h, peeks := st.peeks }

/-- An environment in which every peek offers `n` bytes and no allocation fails. -/
def envOf (n : Nat) (closed : Bool) : Env :=
  { peek := fun _ => .ready n, closed := closed, allocFails := fun _ => false,
    junk := fun _ => 255, ENOMEMORY := 12, EOUTRANGE := 34 }

/-- The empty heap. -/
def heap0 : Heap := { live := [], next := 0, calls := 0 }

/-- The environment of the claims on complete lines: no peek fails and no
allocation fails. -/
def Reliable (env : Env) : Prop :=
  (∀ k, env.peek k ≠ .error) ∧ (∀ k, env.allocFails k = false)

/-- The bytes of `"hello"`. -/
def hello : List Byte := [104, 101, 108, 108, 111]

/-- The bytes of `"world"`. -/
def world : List Byte := [119, 111, 114, 108, 100]

/-! ## `safe_write` and `safe_read` -/

/-- The outcome of one `write` call: it fails with the given `errno`, or the
kernel accepts `c` bytes (never more than were offered). -/
inductive WriteEv where
  | fail (errno : Nat)
  | sent (c : Nat)
deriving DecidableEq, Repr

/-- An outcome is valid when a failure carries a positive `errno`. -/
def WriteEv.valid : WriteEv → Bool
  | .fail e => decide (0 < e)
  | .sent _ => true

/-- The `while (1)` loop of `safe_write` (lines 284-299).  `evs` are the
outcomes of the successive `write` calls, `rx` the bytes the receiver has seen
so far, `buffer` the bytes from the current position of the pointer `buffer`.
Returns the return value and the bytes seen by the receiver; `none` when the
outcomes run out before the function returns. -/
def safe_write_loop : List WriteEv → List Byte → List Byte → Nat → Nat → Option (Int × List Byte)
  | [], _, _, _, _ => none
  | .fail errno :: evs, rx, buffer, bytestosend, count =>
    if errno = EINTR then safe_write_loop evs rx buffer bytestosend count
    else some (-(errno : Int), rx)
  | .sent c :: evs, rx, buffer, bytestosend, count =>
    let len := min c bytestosend
    let rx := rx ++ buffer.take len
    if len = bytestosend then some ((count : Int), rx)
    else safe_write_loop evs rx (buffer.drop len) (bytestosend - len) count

/-- The number of bytes the kernel is ready to accept over a sequence of
outcomes of `write`: the total of the counts of its `sent` outcomes. -/
def sentTotal : List WriteEv → Nat
  | [] => 0
  | .fail _ :: evs => sentTotal evs
  | .sent c :: evs => c + sentTotal evs

/-- The function `safe_write(fd, buffer, count)` (lines 276-302). -/
def safe_write (evs : List WriteEv) (rx : List Byte) (buffer : List Byte) (count : Nat) :
    Option (Int × List Byte) :=
  safe_write_loop evs rx buffer count count

/-- The outcome of one `read` call: it fails with the given `errno`, or the
kernel has `n` bytes at hand. -/
inductive ReadEv where
  | fail (errno : Nat)
  | got (n : Nat)
deriving DecidableEq, Repr

/-- The function `safe_read(fd, buffer, count)` (lines 308-318) on a socket
whose unread bytes are `sock`.  Returns the return value, the bytes stored in
`buffer` and the unread bytes left; `none` when the outcomes run out. -/
def safe_read : List ReadEv → List Byte → Nat → Option (Int × List Byte × List Byte)
  | [], _, _ => none
  | .fail errno :: evs, sock, count =>
    if errno = EINTR then safe_read evs sock count else some (-1, [], sock)
  | .got n :: _, sock, count =>
    let len := min n (min count sock.length)
    some ((len : Int), sock.take len, sock.drop len)

/-! ## The resolver, its locks, and `opensock` -/

/-- The two mutexes of the file: `mutex` (line 35) and `gethostbyname_mutex`
(line 44). -/
inductive Mutex where
  | mutex
  | gethostbyname_mutex
deriving DecidableEq, Repr

/-- The two resolver functions of the C library. -/
inductive Resolver where
  | gethostbyname
  | gethostbyaddr
deriving DecidableEq, Repr

/-- The events of a thread that matter for mutual exclusion: taking and
releasing a mutex, entering and leaving a resolver call. -/
inductive Ev where
  | lock (m : Mutex)
  | unlock (m : Mutex)
  | enter (r : Resolver)
  | leave (r : Resolver)
deriving DecidableEq, Repr

/-- `LOOKUP_LOCK()` (line 45). -/
def LOOKUP_LOCK : Ev := .lock .gethostbyname_mutex

/-- `LOOKUP_UNLOCK()` (line 46). -/
def LOOKUP_UNLOCK : Ev := .unlock .gethostbyname_mutex

/-- `LOCK()` (line 37). -/
def LOCK : Ev := .lock .mutex

/-- `UNLOCK()` (line 38). -/
def UNLOCK : Ev := .unlock .mutex

/-- The C library's address functions, as oracles. -/
structure Resolv where
  /-- `inet_aton`: the address when the text is a dotted-decimal literal. -/
  inet_aton : String → Option Nat
  /-- `gethostbyname`: the first address of the host, `none` for `NULL`. -/
  gethostbyname : String → Option Nat
  /-- `gethostbyaddr`: the bytes of the host's name `h_name` before its
  terminator, `none` for `NULL`. -/
  gethostbyaddr : Nat → Option (List Byte)

/-- The function `lookup_domain(addr, domain)` (lines 54-82), with `addr` not
`NULL`.  Returns the return value, the address stored in `*addr`, and the events
performed, in order. -/
def lookup_domain (rs : Resolv) (domain : Option String) : Int × Option Nat × List Ev :=
  match domain with
  | none => (-1, none, [])
  | some d =>
    match rs.inet_aton d with
    | some a => (0, some a, [])
    | none =>
      match rs.gethostbyname d with
      | none =>
        (-1, none, [LOOKUP_LOCK, .enter .gethostbyname, .leave .gethostbyname, LOOKUP_UNLOCK])
      | some a =>
        (0, some a, [LOOKUP_LOCK, .enter .gethostbyname, .leave .gethostbyname, LOOKUP_UNLOCK])

/-- `strlcpy(dst, src, size)` on a destination that holds the empty string:
the bytes of the string left in `dst`, at most `size - 1` bytes of `src`. -/
def strlcpy (src : List Byte) (size : Nat) : List Byte :=
  src.take (size - 1)

/-- The function `getpeer_string(fd, string)` (lines 236-270).  `getpeername`
is the peer address the kernel reports (`none` when the call fails) and
`PEER_STRING_LENGTH` the size of the caller's buffer (defined in `sock.h`, not
part of the sources).  Returns the bytes of the string left in `string` and the
events performed, in order. -/
def getpeer_string (rs : Resolv) (getpeername : Option Nat) (PEER_STRING_LENGTH : Nat) :
    List Byte × List Ev :=
  match getpeername with
  | none => ([], [])
  | some a =>
    match rs.gethostbyaddr a with
    | some h_name =>
      (strlcpy h_name PEER_STRING_LENGTH,
        [LOCK, .enter .gethostbyaddr, .leave .gethostbyaddr, UNLOCK])
    | none => ([], [LOCK, .enter .gethostbyaddr, .leave .gethostbyaddr, UNLOCK])

/-- The system calls of `opensock`, as oracles. -/
structure Net where
  /-- The descriptor `socket()` returns; `none` when it returns -1. -/
  socket : Option Nat
  /-- Whether `connect()` to the given address and port succeeds. -/
  connect : Nat → Nat → Bool

/-- The function `opensock(ip_addr, port)` (lines 95-134), with `fds` the open
descriptors of the process.  Returns the return value and the open descriptors
after the call. -/
def opensock (rs : Resolv) (os : Net) (ip_addr : String) (port : Nat) (fds : List Nat) :
    Int × List Nat :=
  let ret := (lookup_domain rs (some ip_addr)).1
  let sin_addr := (lookup_domain rs (some ip_addr)).2.1.getD 0
  if ret < 0 then (-1, fds)
  else
    match os.socket with
    | none => (-1, fds)
    | some sock_fd =>
      let fds := sock_fd :: fds
      if os.connect sin_addr port then ((sock_fd : Int), fds) else (-1, fds)

/-! ## Threads -/

/-- A call of one of the two functions that use the resolver. -/
inductive Call where
  | lookup_domain (rs : Resolv) (domain : Option String)
  | getpeer_string (rs : Resolv) (getpeername : Option Nat) (PEER_STRING_LENGTH : Nat)

/-- The events a call performs, in order. -/
def Call.trace : Call → List Ev
  | .lookup_domain rs domain => (Sock.lookup_domain rs domain).2.2
  | .getpeer_string rs g n => (Sock.getpeer_string rs g n).2

/-- The events a thread performs when it makes the given calls one after the
other. -/
def program : List Call → List Ev
  | [] => []
  | c :: cs => c.trace ++ program cs

/-- A system of threads: what each thread has still to do, and which thread
holds each mutex. -/
structure Sys where
  threads : Nat → List Ev
  owner : Mutex → Option Nat

/-- The system before any thread has run: thread `i` is to make the calls
`calls i`, and no mutex is held. -/
def Sys.init (calls : Nat → List Call) : Sys :=
  { threads := fun i => program (calls i), owner := fun _ => none }

/-- Thread `i` is scheduled: it performs its next event.  A thread whose next
event is `lock m` while `m` is held does not move. -/
def Sys.step (s : Sys) (i : Nat) : Sys :=
  match s.threads i with
  | [] => s
  | .lock m :: rest =>
    if (s.owner m).isNone then
      { threads := fun j => if j = i then rest else s.threads j,
        owner := fun x => if x = m then some i else s.owner x }
    else s
  | .unlock m :: rest =>
    { threads := fun j => if j = i then rest else s.threads j,
      owner := fun x => if x = m then none else s.owner x }
  | _ :: rest => { s with threads := fun j => if j = i then rest else s.threads j }

/-- The system after the threads have been scheduled in the given order. -/
def Sys.run (s : Sys) : List Nat → Sys
  | [] => s
  | i :: sched => (s.step i).run sched

/-- Thread `i` is inside the resolver function `r`: it has entered it and has
not left it yet. -/
def Sys.inProgress (s : Sys) (i : Nat) (r : Resolver) : Prop :=
  (s.threads i).head? = some (.leave r)

instance (s : Sys) (i : Nat) (r : Resolver) : Decidable (s.inProgress i r) := by
  unfold Sys.inProgress; infer_instance

/-- The mutex a function of this file takes around the resolver function `r`. -/
def lockOf : Resolver → Mutex
  | .gethostbyname => .gethostbyname_mutex
  | .gethostbyaddr => .mutex

/-- A resolver for which no text is an address literal and every host resolves. -/
def resolvAll : Resolv :=
  { inet_aton := fun _ => none, gethostbyname := fun _ => some 1,
    gethostbyaddr := fun _ => some [112, 101, 101, 114] }

/-- Thread 0 looks a host name up, every other thread asks for the name of its
peer. -/
def twoCallers (i : Nat) : List Call :=
  if i = 0 then [.lookup_domain resolvAll (some "host")]
  else [.getpeer_string resolvAll (some 1) 64]

/-! ## Predicates and auxiliary functions of the proofs -/

/-- The node holds the bytes `b` in its data block, and its `len` field is their
number. -/
def Filled (n : Node) (b : List Byte) : Prop :=
  ∃ a, n.data = some (a, b) ∧ n.len = b.length

/-- The number of bytes a peek returns when the kernel offers `n` bytes and the
socket holds the unread bytes `sock` (not empty). -/
def peekLen (n : Nat) (sock : List Byte) : Nat :=
  max 1 (min n (min SEGMENT_LEN sock.length))

/-- The first loop state of `readline`, once the first node is allocated. -/
def firstState (sock : List Byte) (heap : Heap) : LoopSt :=
  { sock := sock,
    heap := { live := heap.next :: heap.live, next := heap.next + 1, calls := heap.calls + 1 },
    done := [], cur := { addr := heap.next, data := none, len := 0 },
    whole_buffer_len := 0, peeks := 0 }

/-- The total of the `len` fields of a chain. -/
def chainLen (ns : List Node) : Nat := (ns.map Node.len).sum

/-- The invariant at the head of the loop, for a call that started with the
unread bytes `s0`: the bytes consumed so far are as many as the chain holds,
the running total is that number, it is within the ceiling, and the current
node is still empty. -/
def LoopInv (s0 : List Byte) (st : LoopSt) : Prop :=
  (∃ pre, s0 = pre ++ st.sock ∧ pre.length = chainLen st.done) ∧
    st.whole_buffer_len = (chainLen st.done : Int) ∧
    chainLen st.done ≤ MAXIMUM_BUFFER_LENGTH ∧ st.cur.len = 0 ∧ st.peeks ≤ chainLen st.done

/-- The invariant of every state of the loop, also when the loop is left. -/
def ExitInv (s0 : List Byte) (st : LoopSt) : Prop :=
  (∃ pre, s0 = pre ++ st.sock ∧ pre.length = chainLen st.chain) ∧
    chainLen st.chain ≤ MAXIMUM_BUFFER_LENGTH ∧ st.peeks ≤ chainLen st.chain + 1

/-- The events still to be performed by a thread are well formed when the
thread holds the mutex `h` (or none): a mutex is taken only when none is held,
the mutex released is the one held, and a resolver function is entered and left
only while the mutex `lockOf` gives for it is held. -/
def WT : Option Mutex → List Ev → Prop
  | h, [] => h = none
  | h, e :: t =>
    match h, e with
    | none, .lock m => WT (some m) t
    | some m, .unlock m1 => m = m1 ∧ WT none t
    | some m, .enter r => lockOf r = m ∧ WT (some m) t
    | some m, .leave r => lockOf r = m ∧ WT (some m) t
    | _, _ => False

/-- The invariant of a system of threads: what every thread has still to do is
well formed for the mutex it holds, and the thread holds a mutex exactly when it
is recorded as its owner. -/
def Sys.Inv (s : Sys) : Prop :=
  ∀ i, ∃ h, WT h (s.threads i) ∧ ∀ m, h = some m ↔ s.owner m = some i

/-! ## Lemmas on `memchr`, `memcpy` and the copy loop -/

theorem envOf_reliable (n : Nat) (closed : Bool) : Reliable (envOf n closed) :=
  ⟨fun _ => by simp [envOf], fun _ => rfl⟩


theorem memchr_eq_none (s : List Byte) (c : Byte) (h : c ∉ s) : memchr s c = none := by
  induction s with
  | nil => rfl
  | cons b bs ih =>
    have hb : b ≠ c := fun e => h (by simp [e])
    have hbs : c ∉ bs := fun e => h (by simp [e])
    simp [memchr, hb, ih hbs]

theorem memchr_append_cons (l r : List Byte) (c : Byte) (h : c ∉ l) :
    memchr (l ++ c :: r) c = some l.length := by
  induction l with
  | nil => simp [memchr]
  | cons b bs ih =>
    have hb : b ≠ c := fun e => h (by simp [e])
    have hbs : c ∉ bs := fun e => h (by simp [e])
    simp [memchr, hb, ih hbs]

theorem memchr_le_length (s : List Byte) (c : Byte) (k : Nat) (h : memchr s c = some k) :
    k < s.length := by
  induction s generalizing k with
  | nil => simp [memchr] at h
  | cons b bs ih =>
    by_cases hb : b = c
    · simp [memchr, hb] at h
      subst h
      simp
    · simp only [memchr, hb, if_false, Option.map_eq_some'] at h
      obtain ⟨j, hj, rfl⟩ := h
      have := ih j hj
      simp
      omega

theorem memcpy_hole (pre h1 t b : List Byte) (hlen : h1.length = b.length) :
    memcpy (pre ++ h1 ++ t) pre.length b b.length = pre ++ b ++ t := by
  unfold memcpy
  have e1 : List.take pre.length (pre ++ h1 ++ t) = pre := by
    rw [List.append_assoc, List.take_left']
    rfl
  have e2 : List.drop (pre.length + b.length) (pre ++ h1 ++ t) = t := by
    have : pre.length + b.length = (pre ++ h1).length := by simp [hlen]
    rw [this, List.drop_left']
    rfl
  rw [e1, e2, List.take_length]

theorem copyChain_hole (ns : List Node) (ps : List (List Byte)) (h : List.Forall₂ Filled ns ps) :
    ∀ (pre hole post : List Byte), hole.length = ps.flatten.length →
      copyChain ns (pre ++ hole ++ post) pre.length
        = (pre ++ ps.flatten ++ post, pre.length + ps.flatten.length) := by
  induction h with
  | nil =>
    intro pre hole post hl
    have : hole = [] := by
      apply List.eq_nil_of_length_eq_zero
      simpa using hl
    simp [copyChain, this]
  | @cons n b ns ps hf _ ih =>
    intro pre hole post hl
    obtain ⟨a, hd, hlen⟩ := hf
    have hl2 : hole.length = b.length + ps.flatten.length := by simpa using hl
    have hsplit : hole = hole.take b.length ++ hole.drop b.length := (List.take_append_drop _ _).symm
    have ht : (hole.take b.length).length = b.length := by
      rw [List.length_take]; omega
    have hdl : (hole.drop b.length).length = ps.flatten.length := by
      rw [List.length_drop]; omega
    have hm : memcpy (pre ++ hole ++ post) pre.length b b.length
        = (pre ++ b) ++ hole.drop b.length ++ post := by
      have := memcpy_hole pre (hole.take b.length) (hole.drop b.length ++ post) b ht
      rw [← List.append_assoc, ← List.append_assoc] at this
      rw [List.append_assoc pre, List.take_append_drop] at this
      rw [this]
    simp only [copyChain, hd, Option.elim, hlen]
    rw [hm]
    have := ih (pre ++ b) (hole.drop b.length) post hdl
    rw [List.length_append] at this
    rw [this]
    simp [Nat.add_assoc]

/-! ## One pass through the loop body -/

theorem peekLen_pos (n : Nat) (sock : List Byte) : 1 ≤ peekLen n sock := by
  unfold peekLen; omega

theorem peekLen_le (n : Nat) (sock : List Byte) (h : sock ≠ []) :
    peekLen n sock ≤ sock.length := by
  have : 0 < sock.length := List.length_pos.mpr h
  unfold peekLen SEGMENT_LEN; omega

theorem peekLen_le_segment (n : Nat) (sock : List Byte) : peekLen n sock ≤ SEGMENT_LEN := by
  unfold peekLen SEGMENT_LEN; omega

theorem recv_peek_ready (env : Env) (k n : Nat) (sock : List Byte)
    (hp : env.peek k = .ready n) (hne : sock ≠ []) :
    recv_peek env k sock = some (((peekLen n sock : Nat) : Int), sock.take (peekLen n sock)) := by
  unfold recv_peek
  rw [hp]
  cases sock with
  | nil => exact absurd rfl hne
  | cons b bs => rfl

/-- The pass in which the peeked bytes hold no newline and every allocation
succeeds: the bytes are consumed into the current node and a new node is
appended. -/
theorem loopBody_more (env : Env) (st : LoopSt) (n : Nat)
    (hp : env.peek st.peeks = .ready n) (hne : st.sock ≠ [])
    (hnl : NEWLINE ∉ st.sock.take (peekLen n st.sock))
    (hlen : st.whole_buffer_len + (peekLen n st.sock : Nat) ≤ (MAXIMUM_BUFFER_LENGTH : Int))
    (ha1 : env.allocFails st.heap.calls = false)
    (ha2 : env.allocFails (st.heap.calls + 1) = false) :
    loopBody env st =
      (.running,
        { sock := st.sock.drop (peekLen n st.sock),
          heap := { live := (st.heap.next + 1) :: st.heap.next :: st.heap.live,
                    next := st.heap.next + 1 + 1, calls := st.heap.calls + 1 + 1 },
          done := st.done ++ [{ addr := st.cur.addr,
                                data := some (st.heap.next, st.sock.take (peekLen n st.sock)),
                                len := peekLen n st.sock }],
          cur := { addr := st.heap.next + 1, data := none, len := 0 },
          whole_buffer_len := st.whole_buffer_len + (peekLen n st.sock : Nat),
          peeks := st.peeks + 1 }) := by
  have hpos := peekLen_pos n st.sock
  have h1 : ¬ ((peekLen n st.sock : Nat) : Int) ≤ 0 := by omega
  have h2 : ¬ (st.whole_buffer_len + (peekLen n st.sock : Nat) > (MAXIMUM_BUFFER_LENGTH : Int)) := by
    omega
  simp only [loopBody, recv_peek_ready env st.peeks n st.sock hp hne, memchr_eq_none _ _ hnl,
    Int.toNat_ofNat, h1, h2, if_false, safemalloc, safecalloc, ha1, ha2, Option.isSome_none,
    Bool.false_eq_true]

/-- The pass in which the peeked bytes hold a newline at offset `k` and the
allocation succeeds: the line's last `k + 1` bytes are consumed and the loop is
left by `break`. -/
theorem loopBody_last (env : Env) (st : LoopSt) (n k : Nat)
    (hp : env.peek st.peeks = .ready n) (hne : st.sock ≠ [])
    (hnl : memchr (st.sock.take (peekLen n st.sock)) NEWLINE = some k)
    (hlen : st.whole_buffer_len + ((k + 1 : Nat) : Int) ≤ (MAXIMUM_BUFFER_LENGTH : Int))
    (ha1 : env.allocFails st.heap.calls = false) :
    loopBody env st =
      (.brk,
        { sock := st.sock.drop (k + 1),
          heap := { live := st.heap.next :: st.heap.live,
                    next := st.heap.next + 1, calls := st.heap.calls + 1 },
          done := st.done,
          cur := { addr := st.cur.addr, data := some (st.heap.next, st.sock.take (k + 1)),
                   len := k + 1 },
          whole_buffer_len := st.whole_buffer_len + ((k + 1 : Nat) : Int),
          peeks := st.peeks + 1 }) := by
  have hpos := peekLen_pos n st.sock
  have h1 : ¬ ((peekLen n st.sock : Nat) : Int) ≤ 0 := by omega
  have h2 : ¬ (st.whole_buffer_len + ((k + 1 : Nat) : Int) > (MAXIMUM_BUFFER_LENGTH : Int)) := by
    omega
  simp only [loopBody, recv_peek_ready env st.peeks n st.sock hp hne, hnl,
    h1, h2, if_false, safemalloc, ha1, Option.isSome_some, if_true, Bool.false_eq_true]

/-- The pass in which the running total exceeds the ceiling: the loop is left
with `-EOUTRANGE` and nothing is consumed. -/
theorem loopBody_toolong (env : Env) (st : LoopSt) (n : Nat)
    (hp : env.peek st.peeks = .ready n) (hne : st.sock ≠ [])
    (hnl : NEWLINE ∉ st.sock.take (peekLen n st.sock))
    (hlen : st.whole_buffer_len + (peekLen n st.sock : Nat) > (MAXIMUM_BUFFER_LENGTH : Int)) :
    loopBody env st =
      (.cleanup (-env.EOUTRANGE),
        { st with whole_buffer_len := st.whole_buffer_len + (peekLen n st.sock : Nat),
                  peeks := st.peeks + 1 }) := by
  have hpos := peekLen_pos n st.sock
  have h1 : ¬ ((peekLen n st.sock : Nat) : Int) ≤ 0 := by omega
  simp only [loopBody, recv_peek_ready env st.peeks n st.sock hp hne, memchr_eq_none _ _ hnl,
    Int.toNat_ofNat, h1, hlen, if_false, if_true]

/-- The pass in which the peeked bytes hold a newline at offset `k` and the
running total, with the `k + 1` bytes of this window, exceeds the ceiling: the
loop is left with `-EOUTRANGE` and nothing is consumed. -/
theorem loopBody_toolong_last (env : Env) (st : LoopSt) (n k : Nat)
    (hp : env.peek st.peeks = .ready n) (hne : st.sock ≠ [])
    (hnl : memchr (st.sock.take (peekLen n st.sock)) NEWLINE = some k)
    (hlen : st.whole_buffer_len + ((k + 1 : Nat) : Int) > (MAXIMUM_BUFFER_LENGTH : Int)) :
    loopBody env st =
      (.cleanup (-env.EOUTRANGE),
        { st with whole_buffer_len := st.whole_buffer_len + ((k + 1 : Nat) : Int),
                  peeks := st.peeks + 1 }) := by
  have hpos := peekLen_pos n st.sock
  have h1 : ¬ ((peekLen n st.sock : Nat) : Int) ≤ 0 := by omega
  simp only [loopBody, recv_peek_ready env st.peeks n st.sock hp hne, hnl, h1, hlen, if_false,
    if_true]

/-- The pass in which the socket is empty and the peer has closed: the peek
returns 0 and the loop is left with `ret = 0`. -/
theorem loopBody_eof (env : Env) (st : LoopSt) (n : Nat)
    (hp : env.peek st.peeks = .ready n) (he : st.sock = []) (hc : env.closed = true) :
    loopBody env st = (.cleanup 0, { st with peeks := st.peeks + 1 }) := by
  simp [loopBody, recv_peek, hp, he, hc]

/-! ## The loop on a stream that holds a complete line -/

theorem peek_ready_of_ne_error (env : Env) (hpeek : ∀ k, env.peek k ≠ .error) (k : Nat) :
    ∃ n, env.peek k = .ready n := by
  cases h : env.peek k with
  | ready n => exact ⟨n, rfl⟩
  | error => exact absurd h (hpeek k)

theorem iterate_succ_running (env : Env) (k : Nat) (st st1 : LoopSt)
    (h : loopBody env st = (.running, st1)) : iterate env (k + 1) st = iterate env k st1 := by
  simp [iterate, h]

theorem iterate_succ_brk (env : Env) (k : Nat) (st st1 : LoopSt)
    (h : loopBody env st = (.brk, st1)) : iterate env (k + 1) st = (.brk, st1) := by
  simp [iterate, h]

theorem iterate_succ_cleanup (env : Env) (k : Nat) (st st1 : LoopSt) (r : Int)
    (h : loopBody env st = (.cleanup r, st1)) : iterate env (k + 1) st = (.cleanup r, st1) := by
  simp [iterate, h]

theorem iterate_succ_blocked (env : Env) (k : Nat) (st st1 : LoopSt)
    (h : loopBody env st = (.blocked, st1)) : iterate env (k + 1) st = (.blocked, st1) := by
  simp [iterate, h]

/-- On a socket that holds `l ++ NEWLINE :: rest`, with peeks that never fail
and allocations that never fail, the loop is left by `break` with `rest`
unread; the nodes appended to the chain hold `l ++ [NEWLINE]`. -/
theorem iterate_line (env : Env) (hpeek : ∀ k, env.peek k ≠ .error)
    (halloc : ∀ k, env.allocFails k = false) :
    ∀ (fuel : Nat) (l rest : List Byte) (st : LoopSt), NEWLINE ∉ l →
      st.sock = l ++ NEWLINE :: rest →
      st.whole_buffer_len + ((l.length + 1 : Nat) : Int) ≤ (MAXIMUM_BUFFER_LENGTH : Int) →
      l.length + 1 ≤ fuel →
      ∃ st1 ns ps, iterate env fuel st = (.brk, st1) ∧ st1.sock = rest ∧
        st1.whole_buffer_len = st.whole_buffer_len + ((l.length + 1 : Nat) : Int) ∧
        st1.chain = st.done ++ ns ∧ List.Forall₂ Filled ns ps ∧
        ps.flatten = l ++ [NEWLINE] ∧ st1.peeks ≤ st.peeks + (l.length + 1) := by
  intro fuel
  induction fuel with
  | zero => intro l rest st _ _ _ hf; omega
  | succ fuel ih =>
    intro l rest st hnl hs hlen hf
    obtain ⟨n, hp⟩ := peek_ready_of_ne_error env hpeek st.peeks
    have hne : st.sock ≠ [] := by rw [hs]; simp
    have hpos := peekLen_pos n st.sock
    have htk : ∀ m, m ≤ l.length → st.sock.take m = l.take m := by
      intro m hm; rw [hs, List.take_append_of_le_length hm]
    have hdr : ∀ m, m ≤ l.length → st.sock.drop m = l.drop m ++ NEWLINE :: rest := by
      intro m hm; rw [hs, List.drop_append_of_le_length hm]
    have htk2 : ∀ m, l.length < m →
        st.sock.take m = l ++ NEWLINE :: rest.take (m - l.length - 1) := by
      intro m hm
      rw [hs, List.take_append_eq_append_take, List.take_of_length_le (by omega)]
      congr 1
      obtain ⟨j, hj⟩ : ∃ j, m - l.length = j + 1 := ⟨m - l.length - 1, by omega⟩
      rw [hj, List.take_succ_cons]
      congr 2
    by_cases hm : peekLen n st.sock ≤ l.length
    · -- the peeked bytes all belong to `l`
      have htake := htk _ hm
      have hno : NEWLINE ∉ st.sock.take (peekLen n st.sock) := by
        rw [htake]; exact fun h => hnl (List.mem_of_mem_take h)
      have hb := loopBody_more env st n hp hne hno (by push_cast at hlen ⊢; omega)
        (halloc _) (halloc _)
      have hb2 : loopBody env st = (.running, (loopBody env st).2) := by rw [hb]
      rw [iterate_succ_running env fuel st _ hb2]
      have hdrop : (loopBody env st).2.sock = l.drop (peekLen n st.sock) ++ NEWLINE :: rest := by
        rw [hb]; exact hdr _ hm
      have hnl2 : NEWLINE ∉ l.drop (peekLen n st.sock) :=
        fun h => hnl (List.mem_of_mem_drop h)
      have hl2 : (l.drop (peekLen n st.sock)).length = l.length - peekLen n st.sock :=
        List.length_drop _ _
      have hw : (loopBody env st).2.whole_buffer_len
          = st.whole_buffer_len + (peekLen n st.sock : Nat) := by rw [hb]
      have hd : (loopBody env st).2.done = st.done ++
          [{ addr := st.cur.addr, data := some (st.heap.next, st.sock.take (peekLen n st.sock)),
             len := peekLen n st.sock }] := by rw [hb]
      have hpk : (loopBody env st).2.peeks = st.peeks + 1 := by rw [hb]
      obtain ⟨st1, ns, ps, h1, h2, h3, h4, h5, h6, h7⟩ :=
        ih (l.drop (peekLen n st.sock)) rest (loopBody env st).2 hnl2 hdrop
          (by rw [hw]; simp only [hl2]; push_cast at hlen ⊢; omega) (by omega)
      refine ⟨st1,
        { addr := st.cur.addr, data := some (st.heap.next, st.sock.take (peekLen n st.sock)),
          len := peekLen n st.sock } :: ns,
        l.take (peekLen n st.sock) :: ps, h1, h2, ?_, ?_, ?_, ?_, ?_⟩
      · rw [h3, hw]; simp only [hl2]; push_cast; omega
      · rw [h4, hd]; simp
      · refine List.Forall₂.cons ⟨st.heap.next, ?_, ?_⟩ h5
        · rw [htake]
        · simp only [List.length_take]; omega
      · rw [List.flatten_cons, h6, ← List.append_assoc, List.take_append_drop]
      · rw [hpk] at h7; simp only [hl2] at h7; omega
    · -- the newline is among the peeked bytes
      have hm2 : l.length < peekLen n st.sock := by omega
      have htake := htk2 _ hm2
      have hmem : memchr (st.sock.take (peekLen n st.sock)) NEWLINE = some l.length := by
        rw [htake]; exact memchr_append_cons _ _ _ hnl
      have hb := loopBody_last env st n l.length hp hne hmem hlen (halloc _)
      rw [iterate_succ_brk env fuel st _ hb]
      refine ⟨_, [_], [l ++ [NEWLINE]], rfl, ?_, rfl, rfl, ?_, ?_, ?_⟩
      · simp [hs]
      · refine List.Forall₂.cons ⟨st.heap.next, ?_, ?_⟩ List.Forall₂.nil
        · simp [hs, List.take_append_eq_append_take]
        · simp
      · simp
      · show st.peeks + 1 ≤ st.peeks + (l.length + 1)
        omega

/-! ## `readline` on a stream that holds a complete line -/

theorem fresh_buffer_set (f : Nat → Byte) (n : Nat) :
    ((List.range (n + 1)).map f).set n 0 = (List.range n).map f ++ [0] := by
  rw [List.range_succ, List.map_append, List.set_append_right _ _ (by simp)]
  simp

/-- On a socket that holds `l ++ NEWLINE :: rest`, with peeks and allocations
that never fail, `readline` returns `l.length + 1`, stores `l ++ [NEWLINE]`
followed by a zero byte, and leaves `rest` unread. -/
theorem readline_line (env : Env) (hpeek : ∀ k, env.peek k ≠ .error)
    (halloc : ∀ k, env.allocFails k = false) (fuel : Nat) (l rest : List Byte) (heap : Heap)
    (hnl : NEWLINE ∉ l) (hlen : l.length + 1 ≤ MAXIMUM_BUFFER_LENGTH)
    (hf : l.length + 1 ≤ fuel) :
    ∃ r w, readline env fuel (l ++ NEWLINE :: rest) heap = some r ∧
      r.ret = some ((l.length + 1 : Nat) : Int) ∧ r.sock = rest ∧
      r.whole_buffer = some (w, l ++ [NEWLINE] ++ [0]) ∧ r.peeks ≤ l.length + 1 := by
  obtain ⟨st1, ns, ps, h1, h2, h3, h4, h5, h6, h7⟩ :=
    iterate_line env hpeek halloc fuel l rest
      { sock := l ++ NEWLINE :: rest,
        heap := { live := heap.next :: heap.live, next := heap.next + 1,
                  calls := heap.calls + 1 },
        done := [], cur := { addr := heap.next, data := none, len := 0 },
        whole_buffer_len := 0, peeks := 0 }
      hnl rfl (by simp only [zero_add]; exact_mod_cast hlen) hf
  simp only [zero_add, List.nil_append] at h3 h4 h7
  have hn : st1.whole_buffer_len.toNat = ps.flatten.length := by
    rw [h3, h6]; simp
  have hcopy := copyChain_hole ns ps h5 [] ((List.range ps.flatten.length).map env.junk) [0]
    (by simp)
  simp only [List.nil_append, List.length_nil, zero_add] at hcopy
  have hr : readline env fuel (l ++ NEWLINE :: rest) heap
      = some { ret := some (ps.flatten.length : Int),
               whole_buffer := some (st1.heap.next, ps.flatten ++ [0]),
               sock := st1.sock,
               heap := cleanup ns { live := st1.heap.next :: st1.heap.live,
                                    next := st1.heap.next + 1, calls := st1.heap.calls + 1 },
               peeks := st1.peeks } := by
    simp only [readline, safecalloc, safemalloc, halloc, Bool.false_eq_true, if_false, h1, h4, hn,
      fresh_buffer_set, hcopy]
  refine ⟨_, st1.heap.next, hr, ?_, h2, ?_, h7⟩
  · simp [h6]
  · simp [h6]

/-! ## The loop on a stream without newline -/

/-- On a socket whose unread bytes hold no newline and, with the running total,
exceed the ceiling, the loop is left with `-EOUTRANGE`. -/
theorem iterate_toolong (env : Env) (hpeek : ∀ k, env.peek k ≠ .error)
    (halloc : ∀ k, env.allocFails k = false) :
    ∀ (fuel : Nat) (st : LoopSt), NEWLINE ∉ st.sock →
      st.whole_buffer_len ≤ (MAXIMUM_BUFFER_LENGTH : Int) →
      st.whole_buffer_len + (st.sock.length : Int) > (MAXIMUM_BUFFER_LENGTH : Int) →
      (MAXIMUM_BUFFER_LENGTH : Int) - st.whole_buffer_len + 1 ≤ (fuel : Int) →
      ∃ st1, iterate env fuel st = (.cleanup (-env.EOUTRANGE), st1) := by
  intro fuel
  induction fuel with
  | zero => intro st _ h1 _ h3; omega
  | succ fuel ih =>
    intro st hnl h1 h2 h3
    obtain ⟨n, hp⟩ := peek_ready_of_ne_error env hpeek st.peeks
    have hne : st.sock ≠ [] := by
      intro h; rw [h] at h2; simp at h2; omega
    have hpos := peekLen_pos n st.sock
    have hle := peekLen_le n st.sock hne
    have hno : NEWLINE ∉ st.sock.take (peekLen n st.sock) :=
      fun h => hnl (List.mem_of_mem_take h)
    by_cases hm : st.whole_buffer_len + (peekLen n st.sock : Nat) > (MAXIMUM_BUFFER_LENGTH : Int)
    · have hb := loopBody_toolong env st n hp hne hno hm
      exact ⟨_, iterate_succ_cleanup env fuel st _ _ hb⟩
    · have hb := loopBody_more env st n hp hne hno (by omega) (halloc _) (halloc _)
      have hb2 : loopBody env st = (.running, (loopBody env st).2) := by rw [hb]
      rw [iterate_succ_running env fuel st _ hb2]
      have hs : (loopBody env st).2.sock = st.sock.drop (peekLen n st.sock) := by rw [hb]
      have hw : (loopBody env st).2.whole_buffer_len
          = st.whole_buffer_len + (peekLen n st.sock : Nat) := by rw [hb]
      apply ih
      · rw [hs]; exact fun h => hnl (List.mem_of_mem_drop h)
      · rw [hw]; omega
      · rw [hw, hs, List.length_drop]; omega
      · rw [hw]; push_cast at h3 ⊢; omega

/-- On a socket whose unread bytes hold no newline and, with the running total,
stay within the ceiling, and whose peer has closed, the loop consumes every
byte and is then left with `ret = 0`. -/
theorem iterate_closed (env : Env) (hpeek : ∀ k, env.peek k ≠ .error)
    (halloc : ∀ k, env.allocFails k = false) (hc : env.closed = true) :
    ∀ (fuel : Nat) (st : LoopSt), NEWLINE ∉ st.sock →
      st.whole_buffer_len + (st.sock.length : Int) ≤ (MAXIMUM_BUFFER_LENGTH : Int) →
      st.sock.length + 1 ≤ fuel →
      ∃ st1, iterate env fuel st = (.cleanup 0, st1) ∧ st1.sock = [] := by
  intro fuel
  induction fuel with
  | zero => intro st _ _ h3; omega
  | succ fuel ih =>
    intro st hnl h2 h3
    obtain ⟨n, hp⟩ := peek_ready_of_ne_error env hpeek st.peeks
    by_cases he : st.sock = []
    · have hb := loopBody_eof env st n hp he hc
      exact ⟨_, iterate_succ_cleanup env fuel st _ _ hb, he⟩
    · have hpos := peekLen_pos n st.sock
      have hle := peekLen_le n st.sock he
      have hno : NEWLINE ∉ st.sock.take (peekLen n st.sock) :=
        fun h => hnl (List.mem_of_mem_take h)
      have hb := loopBody_more env st n hp he hno (by omega) (halloc _) (halloc _)
      have hb2 : loopBody env st = (.running, (loopBody env st).2) := by rw [hb]
      rw [iterate_succ_running env fuel st _ hb2]
      have hs : (loopBody env st).2.sock = st.sock.drop (peekLen n st.sock) := by rw [hb]
      have hw : (loopBody env st).2.whole_buffer_len
          = st.whole_buffer_len + (peekLen n st.sock : Nat) := by rw [hb]
      apply ih
      · rw [hs]; exact fun h => hnl (List.mem_of_mem_drop h)
      · rw [hw, hs, List.length_drop]; omega
      · rw [hs, List.length_drop]; omega

/-- On a socket that holds `l ++ NEWLINE :: rest` where the line, counted with
its newline and the running total, exceeds the ceiling, the loop is left with
`-EOUTRANGE`. -/
theorem iterate_line_toolong (env : Env) (hpeek : ∀ k, env.peek k ≠ .error)
    (halloc : ∀ k, env.allocFails k = false) :
    ∀ (fuel : Nat) (l rest : List Byte) (st : LoopSt), NEWLINE ∉ l →
      st.sock = l ++ NEWLINE :: rest →
      st.whole_buffer_len ≤ (MAXIMUM_BUFFER_LENGTH : Int) →
      st.whole_buffer_len + ((l.length + 1 : Nat) : Int) > (MAXIMUM_BUFFER_LENGTH : Int) →
      (MAXIMUM_BUFFER_LENGTH : Int) - st.whole_buffer_len + 1 ≤ (fuel : Int) →
      ∃ st1, iterate env fuel st = (.cleanup (-env.EOUTRANGE), st1) := by
  intro fuel
  induction fuel with
  | zero => intro l rest st _ _ h1 _ h3; omega
  | succ fuel ih =>
    intro l rest st hnl hs h1 h2 h3
    obtain ⟨n, hp⟩ := peek_ready_of_ne_error env hpeek st.peeks
    have hne : st.sock ≠ [] := by rw [hs]; simp
    have hpos := peekLen_pos n st.sock
    have htk : ∀ m, m ≤ l.length → st.sock.take m = l.take m := by
      intro m hm; rw [hs, List.take_append_of_le_length hm]
    have hdr : ∀ m, m ≤ l.length → st.sock.drop m = l.drop m ++ NEWLINE :: rest := by
      intro m hm; rw [hs, List.drop_append_of_le_length hm]
    have htk2 : ∀ m, l.length < m →
        st.sock.take m = l ++ NEWLINE :: rest.take (m - l.length - 1) := by
      intro m hm
      rw [hs, List.take_append_eq_append_take, List.take_of_length_le (by omega)]
      congr 1
      obtain ⟨j, hj⟩ : ∃ j, m - l.length = j + 1 := ⟨m - l.length - 1, by omega⟩
      rw [hj, List.take_succ_cons]
      congr 2
    by_cases hm : peekLen n st.sock ≤ l.length
    · have hno : NEWLINE ∉ st.sock.take (peekLen n st.sock) := by
        rw [htk _ hm]; exact fun h => hnl (List.mem_of_mem_take h)
      by_cases hlong : st.whole_buffer_len + (peekLen n st.sock : Nat)
          > (MAXIMUM_BUFFER_LENGTH : Int)
      · have hb := loopBody_toolong env st n hp hne hno hlong
        exact ⟨_, iterate_succ_cleanup env fuel st _ _ hb⟩
      · have hb := loopBody_more env st n hp hne hno (by omega) (halloc _) (halloc _)
        have hb2 : loopBody env st = (.running, (loopBody env st).2) := by rw [hb]
        rw [iterate_succ_running env fuel st _ hb2]
        have hs2 : (loopBody env st).2.sock
            = l.drop (peekLen n st.sock) ++ NEWLINE :: rest := by
          rw [hb]; exact hdr _ hm
        have hw : (loopBody env st).2.whole_buffer_len
            = st.whole_buffer_len + (peekLen n st.sock : Nat) := by rw [hb]
        have hl2 : (l.drop (peekLen n st.sock)).length = l.length - peekLen n st.sock :=
          List.length_drop _ _
        apply ih (l.drop (peekLen n st.sock)) rest _
          (fun h => hnl (List.mem_of_mem_drop h)) hs2
        · rw [hw]; omega
        · rw [hw]; simp only [hl2]; push_cast at h2 ⊢; omega
        · rw [hw]; push_cast at h3 ⊢; omega
    · have hmem : memchr (st.sock.take (peekLen n st.sock)) NEWLINE = some l.length := by
        rw [htk2 _ (by omega)]; exact memchr_append_cons _ _ _ hnl
      have hb := loopBody_toolong_last env st n l.length hp hne hmem h2
      exact ⟨_, iterate_succ_cleanup env fuel st _ _ hb⟩

theorem readline_of_cleanup (env : Env) (fuel : Nat) (sock : List Byte) (heap : Heap)
    (ret : Int) (st1 : LoopSt) (ha : env.allocFails heap.calls = false)
    (h : iterate env fuel (firstState sock heap) = (.cleanup ret, st1)) :
    readline env fuel sock heap
      = some { ret := some ret, whole_buffer := none, sock := st1.sock,
               heap := cleanup st1.chain st1.heap, peeks := st1.peeks } := by
  unfold firstState at h
  simp only [readline, safecalloc, safemalloc, ha, Bool.false_eq_true, if_false, h]

/-! ## Bounds that hold for every stream and every environment -/

theorem chainLen_append (a b : List Node) : chainLen (a ++ b) = chainLen a + chainLen b := by
  simp [chainLen]

theorem chainLen_single (n : Node) : chainLen [n] = n.len := by
  simp [chainLen]

theorem ExitInv_of_LoopInv (s0 : List Byte) (st : LoopSt) (h : LoopInv s0 st) :
    ExitInv s0 st := by
  obtain ⟨⟨pre, hs, hpre⟩, _, hmax, hcur, hpk⟩ := h
  have hc : chainLen st.chain = chainLen st.done := by
    simp [LoopSt.chain, chainLen_append, chainLen_single, hcur]
  refine ⟨⟨pre, hs, by rw [hc]; exact hpre⟩, by rw [hc]; exact hmax, by rw [hc]; omega⟩

theorem recv_peek_spec (env : Env) (k : Nat) (sock : List Byte) (ret : Int)
    (buffer : List Byte) (h : recv_peek env k sock = some (ret, buffer)) :
    ret ≤ 0 ∨ ∃ m : Nat, ret = (m : Int) ∧ 1 ≤ m ∧ m ≤ sock.length ∧ m ≤ SEGMENT_LEN ∧
      buffer = sock.take m := by
  unfold recv_peek at h
  cases hp : env.peek k with
  | error =>
    rw [hp] at h
    simp only [Option.some.injEq, Prod.mk.injEq] at h
    left; omega
  | ready n =>
    rw [hp] at h
    cases sock with
    | nil =>
      by_cases hc : env.closed = true
      · simp [hc] at h
        left; omega
      · simp [hc] at h
    | cons b bs =>
      simp only [Option.some.injEq, Prod.mk.injEq] at h
      right
      refine ⟨max 1 (min n (min SEGMENT_LEN (b :: bs).length)), h.1.symm, ?_, ?_, ?_, h.2.symm⟩
      · omega
      · simp only [List.length_cons, SEGMENT_LEN]; omega
      · simp only [List.length_cons, SEGMENT_LEN]; omega

/-- The number of bytes of a peeked window that belong to the line lies
between 1 and the size of the window. -/
theorem diff_bounds (sock : List Byte) (m : Nat) (h1 : 1 ≤ m) (h2 : m ≤ sock.length) :
    ∃ d : Nat, (match memchr (sock.take m) NEWLINE with
                | some k => k + 1
                | none => ((m : Int)).toNat) = d ∧ 1 ≤ d ∧ d ≤ m := by
  cases hm : memchr (sock.take m) NEWLINE with
  | none => exact ⟨m, by simp, h1, le_refl _⟩
  | some k =>
    have := memchr_le_length _ _ _ hm
    rw [List.length_take] at this
    exact ⟨k + 1, rfl, by omega, by omega⟩

/-- One pass through the body keeps the invariants: the state it leaves
satisfies `ExitInv`, and `LoopInv` with one more peek when the loop goes on. -/
theorem loopBody_inv (env : Env) (s0 : List Byte) (st : LoopSt) (h : LoopInv s0 st) :
    ExitInv s0 (loopBody env st).2 ∧
      ((loopBody env st).1 = .running →
        LoopInv s0 (loopBody env st).2 ∧ (loopBody env st).2.peeks = st.peeks + 1) := by
  have hexit := ExitInv_of_LoopInv s0 st h
  obtain ⟨⟨pre, hs, hpre⟩, hw, hmax, hcur, hpk⟩ := h
  obtain ⟨hx1, hx2, hx3⟩ := hexit
  have hc : chainLen st.chain = chainLen st.done := by
    simp [LoopSt.chain, chainLen_append, chainLen_single, hcur]
  unfold loopBody
  cases hr : recv_peek env st.peeks st.sock with
  | none =>
    refine ⟨⟨hx1, hx2, ?_⟩, by simp⟩
    show st.peeks + 1 ≤ chainLen st.chain + 1
    omega
  | some p =>
    obtain ⟨ret, buffer⟩ := p
    rcases recv_peek_spec env st.peeks st.sock ret buffer hr with hle | ⟨m, rfl, h1, h2, _, rfl⟩
    · simp only [hle, if_true]
      refine ⟨⟨hx1, hx2, ?_⟩, by simp⟩
      show st.peeks + 1 ≤ chainLen st.chain + 1
      omega
    · have hpos : ¬ ((m : Int) ≤ 0) := by omega
      obtain ⟨d, hd, hd1, hd2⟩ := diff_bounds st.sock m h1 h2
      simp only [hpos, if_false, hd]
      by_cases hlong : st.whole_buffer_len + (d : Int) > (MAXIMUM_BUFFER_LENGTH : Int)
      · simp only [hlong, if_true]
        refine ⟨⟨hx1, hx2, ?_⟩, by simp⟩
        show st.peeks + 1 ≤ chainLen st.chain + 1
        omega
      · simp only [hlong, if_false]
        -- the bytes consumed by this pass
        have hsplit : s0 = (pre ++ st.sock.take d) ++ st.sock.drop d := by
          rw [List.append_assoc, List.take_append_drop]; exact hs
        have hplen : (pre ++ st.sock.take d).length = chainLen st.done + d := by
          rw [List.length_append, List.length_take, hpre]; omega
        have hfit : chainLen st.done + d ≤ MAXIMUM_BUFFER_LENGTH := by omega
        cases ha : env.allocFails st.heap.calls with
        | true =>
          simp only [safemalloc, ha, if_true]
          refine ⟨⟨hx1, hx2, ?_⟩, by simp⟩
          show st.peeks + 1 ≤ chainLen st.chain + 1
          omega
        | false =>
          simp only [safemalloc, ha, Bool.false_eq_true, if_false]
          cases hptr : (memchr (st.sock.take m) NEWLINE).isSome with
          | true =>
            simp only [if_true]
            refine ⟨⟨⟨_, hsplit, ?_⟩, ?_, ?_⟩, by simp⟩
            · rw [hplen]; simp [LoopSt.chain, chainLen]
            · simp only [LoopSt.chain, chainLen_append, chainLen_single]; omega
            · simp only [LoopSt.chain, chainLen_append, chainLen_single]; omega
          | false =>
            simp only [Bool.false_eq_true, if_false, safecalloc, safemalloc]
            cases ha2 : env.allocFails (st.heap.calls + 1) with
            | true =>
              simp only [if_true]
              refine ⟨⟨⟨_, hsplit, ?_⟩, ?_, ?_⟩, by simp⟩
              · rw [hplen]; simp [LoopSt.chain, chainLen]
              · simp only [LoopSt.chain, chainLen_append, chainLen_single]; omega
              · simp only [LoopSt.chain, chainLen_append, chainLen_single]; omega
            | false =>
              simp only [Bool.false_eq_true, if_false]
              have e1 : chainLen (st.done ++
                  [{ addr := st.cur.addr, data := some (st.heap.next, st.sock.take d),
                     len := d }]) = chainLen st.done + d := by
                simp [chainLen]
              have e2 : chainLen (LoopSt.chain
                  { sock := st.sock.drop d,
                    heap := { live := (st.heap.next + 1) :: st.heap.next :: st.heap.live,
                              next := st.heap.next + 1 + 1, calls := st.heap.calls + 1 + 1 },
                    done := st.done ++
                      [{ addr := st.cur.addr, data := some (st.heap.next, st.sock.take d),
                         len := d }],
                    cur := { addr := st.heap.next + 1, data := none, len := 0 },
                    whole_buffer_len := st.whole_buffer_len + (d : Int),
                    peeks := st.peeks + 1 }) = chainLen st.done + d := by
                simp [LoopSt.chain, chainLen]
              refine ⟨⟨⟨_, hsplit, ?_⟩, ?_, ?_⟩,
                fun _ => ⟨⟨⟨_, hsplit, ?_⟩, ?_, ?_, rfl, ?_⟩, trivial⟩⟩
              · rw [hplen, e2]
              · rw [e2]; exact hfit
              · rw [e2]; show st.peeks + 1 ≤ chainLen st.done + d + 1; omega
              · rw [hplen, e1]
              · rw [e1]; show st.whole_buffer_len + (d : Int) = _; push_cast; omega
              · rw [e1]; exact hfit
              · rw [e1]; show st.peeks + 1 ≤ chainLen st.done + d; omega

/-- The invariants hold after any number of passes. -/
theorem iterate_inv (env : Env) (s0 : List Byte) :
    ∀ (k : Nat) (st : LoopSt), LoopInv s0 st →
      ExitInv s0 (iterate env k st).2 ∧
        ((iterate env k st).1 = .running →
          LoopInv s0 (iterate env k st).2 ∧ (iterate env k st).2.peeks = st.peeks + k) := by
  intro k
  induction k with
  | zero =>
    intro st h
    exact ⟨ExitInv_of_LoopInv s0 st h, fun _ => ⟨h, rfl⟩⟩
  | succ k ih =>
    intro st h
    obtain ⟨hb1, hb2⟩ := loopBody_inv env s0 st h
    cases hb : loopBody env st with
    | mk c st1 =>
      rw [hb] at hb1 hb2
      cases c with
      | running =>
        rw [iterate_succ_running env k st st1 hb]
        obtain ⟨hl, hp⟩ := hb2 rfl
        obtain ⟨i1, i2⟩ := ih st1 hl
        refine ⟨i1, fun hrun => ?_⟩
        obtain ⟨j1, j2⟩ := i2 hrun
        refine ⟨j1, ?_⟩
        rw [j2]
        show st1.peeks + k = st.peeks + (k + 1)
        have : st1.peeks = st.peeks + 1 := hp
        omega
      | brk =>
        rw [iterate_succ_brk env k st st1 hb]
        exact ⟨hb1, fun hrun => by cases hrun⟩
      | cleanup r =>
        rw [iterate_succ_cleanup env k st st1 r hb]
        exact ⟨hb1, fun hrun => by cases hrun⟩
      | blocked =>
        rw [iterate_succ_blocked env k st st1 hb]
        exact ⟨hb1, fun hrun => by cases hrun⟩

theorem firstState_inv (sock : List Byte) (heap : Heap) : LoopInv sock (firstState sock heap) := by
  refine ⟨⟨[], rfl, rfl⟩, rfl, ?_, rfl, ?_⟩
  · simp [firstState, chainLen]
  · simp [firstState, chainLen]

/-- After `MAXIMUM_BUFFER_LENGTH + 1` passes at the latest the loop has been
left. -/
theorem iterate_stops (env : Env) (sock : List Byte) (heap : Heap) (fuel : Nat)
    (hf : MAXIMUM_BUFFER_LENGTH + 1 ≤ fuel) :
    (iterate env fuel (firstState sock heap)).1 ≠ .running := by
  intro hrun
  obtain ⟨_, h2⟩ := iterate_inv env sock fuel (firstState sock heap) (firstState_inv sock heap)
  obtain ⟨⟨_, _, hmax, _, hpk⟩, hp⟩ := h2 hrun
  rw [hp] at hpk
  have : (firstState sock heap).peeks = 0 := rfl
  omega

/-- What `readline` leaves of the socket and the number of its peeks are those
of the loop. -/
theorem readline_of_iterate (env : Env) (fuel : Nat) (sock : List Byte) (heap : Heap)
    (ha : env.allocFails heap.calls = false)
    (hrun : (iterate env fuel (firstState sock heap)).1 ≠ .running) :
    ∃ r, readline env fuel sock heap = some r ∧
      r.sock = (iterate env fuel (firstState sock heap)).2.sock ∧
      r.peeks = (iterate env fuel (firstState sock heap)).2.peeks := by
  cases hit : iterate env fuel (firstState sock heap) with
  | mk c st1 =>
    rw [hit] at hrun
    unfold firstState at hit
    cases c with
    | running => exact absurd rfl hrun
    | blocked =>
      simp only [readline, safecalloc, safemalloc, ha, Bool.false_eq_true, if_false, hit]
      exact ⟨_, rfl, rfl, rfl⟩
    | cleanup r =>
      simp only [readline, safecalloc, safemalloc, ha, Bool.false_eq_true, if_false, hit]
      exact ⟨_, rfl, rfl, rfl⟩
    | brk =>
      cases ha2 : env.allocFails st1.heap.calls with
      | true =>
        simp only [readline, safecalloc, safemalloc, ha, Bool.false_eq_true, if_false, hit, ha2,
          if_true]
        exact ⟨_, rfl, rfl, rfl⟩
      | false =>
        simp only [readline, safecalloc, safemalloc, ha, Bool.false_eq_true, if_false, hit, ha2]
        exact ⟨_, rfl, rfl, rfl⟩

/-! ## `safe_write` -/

/-- When the loop of `safe_write` returns a non-negative value, that value is
`count` and the receiver has been sent the `bytestosend` bytes at `buffer`, in
order, after what it had seen before. -/
theorem safe_write_loop_spec :
    ∀ (evs : List WriteEv) (rx buffer : List Byte) (bytestosend count : Nat) (ret : Int)
      (rx1 : List Byte), (∀ ev ∈ evs, ev.valid = true) →
      safe_write_loop evs rx buffer bytestosend count = some (ret, rx1) → 0 ≤ ret →
      ret = (count : Int) ∧ rx1 = rx ++ buffer.take bytestosend := by
  intro evs
  induction evs with
  | nil => intro rx buffer n count ret rx1 _ h; simp [safe_write_loop] at h
  | cons ev evs ih =>
    intro rx buffer n count ret rx1 hv h hret
    have hv2 : ∀ e ∈ evs, e.valid = true := fun e he => hv e (List.mem_cons_of_mem _ he)
    cases ev with
    | fail errno =>
      have hpos : 0 < errno := by
        have := hv (.fail errno) (List.mem_cons_self _ _)
        simpa [WriteEv.valid] using this
      by_cases he : errno = EINTR
      · simp only [safe_write_loop, he, if_true] at h
        exact ih rx buffer n count ret rx1 hv2 h hret
      · simp only [safe_write_loop, he, if_false, Option.some.injEq, Prod.mk.injEq] at h
        omega
    | sent c =>
      by_cases hl : min c n = n
      · simp only [safe_write_loop, hl, if_true, Option.some.injEq, Prod.mk.injEq] at h
        exact ⟨h.1.symm, h.2.symm⟩
      · simp only [safe_write_loop, hl, if_false] at h
        obtain ⟨h1, h2⟩ := ih _ _ _ count ret rx1 hv2 h hret
        refine ⟨h1, ?_⟩
        rw [h2, List.append_assoc]
        congr 1
        have hn : n = min c n + (n - min c n) := by omega
        conv_rhs => rw [hn, List.take_add]

theorem sent_mem_of_sentTotal_pos :
    ∀ (evs : List WriteEv), 0 < sentTotal evs → ∃ c, WriteEv.sent c ∈ evs := by
  intro evs
  induction evs with
  | nil => intro h; simp [sentTotal] at h
  | cons ev evs ih =>
    intro h
    cases ev with
    | fail errno =>
      obtain ⟨c, hc⟩ := ih (by simpa [sentTotal] using h)
      exact ⟨c, List.mem_cons_of_mem _ hc⟩
    | sent c => exact ⟨c, List.mem_cons_self _ _⟩

/-- When every failure among the outcomes is `EINTR`, at least one `write`
is answered with a count and the counts add up to `bytestosend` or more, the
loop of `safe_write` goes on after every short write and every `EINTR` until
all the bytes are sent, and returns `count`. -/
theorem safe_write_loop_completes :
    ∀ (evs : List WriteEv) (rx buffer : List Byte) (bytestosend count : Nat),
      (∀ e, WriteEv.fail e ∈ evs → e = EINTR) → (∃ c, WriteEv.sent c ∈ evs) →
      bytestosend ≤ sentTotal evs →
      safe_write_loop evs rx buffer bytestosend count
        = some ((count : Int), rx ++ buffer.take bytestosend) := by
  intro evs
  induction evs with
  | nil => intro rx buffer n count _ hs _; obtain ⟨c, hc⟩ := hs; simp at hc
  | cons ev evs ih =>
    intro rx buffer n count hf hs ht
    have hf2 : ∀ e, WriteEv.fail e ∈ evs → e = EINTR :=
      fun e he => hf e (List.mem_cons_of_mem _ he)
    cases ev with
    | fail errno =>
      have he : errno = EINTR := hf errno (List.mem_cons_self _ _)
      have hs2 : ∃ c, WriteEv.sent c ∈ evs := by
        obtain ⟨c, hc⟩ := hs
        rcases List.mem_cons.mp hc with h | h
        · cases h
        · exact ⟨c, h⟩
      simp only [safe_write_loop, he, if_true]
      exact ih rx buffer n count hf2 hs2 (by simpa [sentTotal] using ht)
    | sent c =>
      by_cases hl : min c n = n
      · simp only [safe_write_loop, hl, if_true]
      · have hcn : c < n := by omega
        have hmin : min c n = c := by omega
        have ht2 : n - c ≤ sentTotal evs := by
          simp only [sentTotal] at ht; omega
        have hs2 : ∃ c1, WriteEv.sent c1 ∈ evs :=
          sent_mem_of_sentTotal_pos evs (by omega)
        have hne : ¬ c = n := by omega
        simp only [safe_write_loop, hmin, hne, if_false]
        rw [ih _ _ (n - c) count hf2 hs2 ht2, List.append_assoc]
        have hn : n = c + (n - c) := by omega
        conv_rhs => rw [hn, List.take_add]

/-! ## Mutual exclusion around the resolver -/

theorem WT_trace_append (c : Call) (rest : List Ev) (h : WT none rest) :
    WT none (c.trace ++ rest) := by
  cases c with
  | lookup_domain rs domain =>
    cases domain with
    | none => simpa [Call.trace, lookup_domain] using h
    | some d =>
      cases h1 : rs.inet_aton d with
      | some a => simpa [Call.trace, lookup_domain, h1] using h
      | none =>
        cases h2 : rs.gethostbyname d <;>
          simp [Call.trace, lookup_domain, h1, h2, WT, LOOKUP_LOCK, LOOKUP_UNLOCK, lockOf, h]
  | getpeer_string rs g n =>
    cases g with
    | none => simpa [Call.trace, getpeer_string] using h
    | some a =>
      cases h1 : rs.gethostbyaddr a <;>
        simp [Call.trace, getpeer_string, h1, WT, LOCK, UNLOCK, lockOf, h]

theorem WT_program (cs : List Call) : WT none (program cs) := by
  induction cs with
  | nil => simp [program, WT]
  | cons c cs ih => exact WT_trace_append c _ ih

theorem init_inv (calls : Nat → List Call) : (Sys.init calls).Inv := by
  intro i
  exact ⟨none, WT_program _, fun m => by simp [Sys.init]⟩

theorem WT_lock (h : Option Mutex) (m : Mutex) (t : List Ev) (hw : WT h (.lock m :: t)) :
    h = none ∧ WT (some m) t := by
  cases h with
  | none => exact ⟨rfl, by simpa [WT] using hw⟩
  | some x => simp [WT] at hw

theorem WT_unlock (h : Option Mutex) (m : Mutex) (t : List Ev) (hw : WT h (.unlock m :: t)) :
    h = some m ∧ WT none t := by
  cases h with
  | none => simp [WT] at hw
  | some x =>
    simp only [WT] at hw
    exact ⟨by rw [hw.1], hw.2⟩

theorem WT_enter (h : Option Mutex) (r : Resolver) (t : List Ev) (hw : WT h (.enter r :: t)) :
    h = some (lockOf r) ∧ WT h t := by
  cases h with
  | none => simp [WT] at hw
  | some x =>
    simp only [WT] at hw
    exact ⟨by rw [hw.1], hw.2⟩

theorem WT_leave (h : Option Mutex) (r : Resolver) (t : List Ev) (hw : WT h (.leave r :: t)) :
    h = some (lockOf r) ∧ WT h t := by
  cases h with
  | none => simp [WT] at hw
  | some x =>
    simp only [WT] at hw
    exact ⟨by rw [hw.1], hw.2⟩

/-- Scheduling a thread keeps the invariant. -/
theorem step_inv (s : Sys) (i : Nat) (hinv : s.Inv) : (s.step i).Inv := by
  unfold Sys.step
  cases hti : s.threads i with
  | nil => exact hinv
  | cons e rest =>
    obtain ⟨hi, hwi, hoi⟩ := hinv i
    rw [hti] at hwi
    cases e with
    | lock m =>
      by_cases hfree : (s.owner m).isNone = true
      · simp only [hfree, if_true]
        have hnone : s.owner m = none := Option.isNone_iff_eq_none.mp hfree
        obtain ⟨h0, hw⟩ := WT_lock hi m rest hwi
        intro j
        by_cases hj : j = i
        · subst hj
          refine ⟨some m, by simpa using hw, fun x => ?_⟩
          by_cases hx : x = m
          · simp [hx]
          · have : s.owner x ≠ some j := fun e => by
              have := (hoi x).mpr e
              rw [h0] at this
              cases this
            simp only [hx, if_false]
            constructor
            · intro e; exact absurd (Option.some.inj e).symm hx
            · intro e; exact absurd e this
        · obtain ⟨hj0, hwj, hoj⟩ := hinv j
          refine ⟨hj0, by simpa [hj] using hwj, fun x => ?_⟩
          by_cases hx : x = m
          · subst hx
            simp only [if_true]
            constructor
            · intro e
              have := (hoj x).mp e
              rw [hnone] at this
              cases this
            · intro e; exact absurd (Option.some.inj e).symm hj
          · simp only [hx, if_false]
            exact hoj x
      · simp only [hfree, if_false]
        exact hinv
    | unlock m =>
      obtain ⟨h0, hw⟩ := WT_unlock hi m rest hwi
      have hown : s.owner m = some i := (hoi m).mp h0
      intro j
      by_cases hj : j = i
      · subst hj
        refine ⟨none, by simpa using hw, fun x => ?_⟩
        by_cases hx : x = m
        · simp [hx]
        · simp only [hx, if_false]
          constructor
          · intro e; cases e
          · intro e
            have := (hoi x).mpr e
            rw [h0] at this
            exact absurd (Option.some.inj this).symm hx
      · obtain ⟨hj0, hwj, hoj⟩ := hinv j
        refine ⟨hj0, by simpa [hj] using hwj, fun x => ?_⟩
        by_cases hx : x = m
        · subst hx
          simp only [if_true]
          constructor
          · intro e
            have := (hoj x).mp e
            rw [hown] at this
            exact absurd (Option.some.inj this).symm hj
          · intro e; cases e
        · simp only [hx, if_false]
          exact hoj x
    | enter r =>
      obtain ⟨_, hw⟩ := WT_enter hi r rest hwi
      intro j
      by_cases hj : j = i
      · subst hj
        exact ⟨hi, by simpa using hw, hoi⟩
      · obtain ⟨hj0, hwj, hoj⟩ := hinv j
        exact ⟨hj0, by simpa [hj] using hwj, hoj⟩
    | leave r =>
      obtain ⟨_, hw⟩ := WT_leave hi r rest hwi
      intro j
      by_cases hj : j = i
      · subst hj
        exact ⟨hi, by simpa using hw, hoi⟩
      · obtain ⟨hj0, hwj, hoj⟩ := hinv j
        exact ⟨hj0, by simpa [hj] using hwj, hoj⟩

/-- The invariant holds after any schedule. -/
theorem run_inv (sched : List Nat) : ∀ (s : Sys), s.Inv → (s.run sched).Inv := by
  induction sched with
  | nil => intro s h; exact h
  | cons i sched ih => intro s h; exact ih _ (step_inv s i h)

/-- A thread inside a resolver function owns the mutex its function takes
around it. -/
theorem owner_of_inProgress (s : Sys) (hinv : s.Inv) (i : Nat) (r : Resolver)
    (h : s.inProgress i r) : s.owner (lockOf r) = some i := by
  obtain ⟨h0, hw, ho⟩ := hinv i
  unfold Sys.inProgress at h
  cases hti : s.threads i with
  | nil => rw [hti] at h; simp at h
  | cons e t =>
    rw [hti] at h hw
    simp only [List.head?_cons, Option.some.injEq] at h
    subst h
    exact (ho _).mp (WT_leave h0 r t hw).1

/-- A thread that has nothing left to do owns no mutex. -/
theorem no_owner_of_finished (s : Sys) (hinv : s.Inv) (i : Nat) (h : s.threads i = [])
    (m : Mutex) : s.owner m ≠ some i := by
  obtain ⟨h0, hw, ho⟩ := hinv i
  rw [h] at hw
  have hn : h0 = none := by simpa [WT] using hw
  intro e
  have := (ho m).mpr e
  rw [hn] at this
  cases this

/-! ## The claims -/

/-- C1 (non-destructive boundary): on a socket holding `line ++ [newline] ++ rest`
with no newline in `line` and `line.length + 1` within the ceiling, for every
schedule of peek lengths, `readline` returns and the unread stream is then
exactly `rest`: it has consumed exactly `line.length + 1` bytes. -/
theorem readline_consumes_exactly_the_line (env : Env) (fuel : Nat) (line rest : List Byte)
    (heap : Heap) (henv : Reliable env) (hnl : NEWLINE ∉ line)
    (hlen : line.length + 1 ≤ MAXIMUM_BUFFER_LENGTH) (hf : line.length + 1 ≤ fuel) :
    ∃ r consumed, readline env fuel (line ++ NEWLINE :: rest) heap = some r ∧
      r.ret.isSome = true ∧ r.sock = rest ∧
      line ++ NEWLINE :: rest = consumed ++ r.sock ∧ consumed.length = line.length + 1 := by
  obtain ⟨r, w, h1, h2, h3, _, _⟩ :=
    readline_line env henv.1 henv.2 fuel line rest heap hnl hlen hf
  refine ⟨r, line ++ [NEWLINE], h1, by rw [h2]; rfl, h3, by rw [h3]; simp, by simp⟩

theorem readline_consumes_exactly_the_line_witness :
    ∃ r consumed, readline (envOf 3 false) 10 (hello ++ NEWLINE :: world) heap0 = some r ∧
      r.ret.isSome = true ∧ r.sock = world ∧
      hello ++ NEWLINE :: world = consumed ++ r.sock ∧ consumed.length = hello.length + 1 :=
  readline_consumes_exactly_the_line (envOf 3 false) 10 hello world heap0
    (envOf_reliable 3 false) (by decide) (by decide) (by decide)

/-- C2 (result of a successful call): under the same hypotheses `readline`
returns `L = line.length + 1` and stores a buffer of `L + 1` bytes whose first
`L` bytes are `line ++ [newline]` and whose byte at index `L` is 0. -/
theorem readline_result_is_the_line (env : Env) (fuel : Nat) (line rest : List Byte)
    (heap : Heap) (henv : Reliable env) (hnl : NEWLINE ∉ line)
    (hlen : line.length + 1 ≤ MAXIMUM_BUFFER_LENGTH) (hf : line.length + 1 ≤ fuel) :
    ∃ r w buf, readline env fuel (line ++ NEWLINE :: rest) heap = some r ∧
      r.ret = some ((line.length + 1 : Nat) : Int) ∧ r.whole_buffer = some (w, buf) ∧
      buf.length = line.length + 1 + 1 ∧ buf.take (line.length + 1) = line ++ [NEWLINE] ∧
      buf[line.length + 1]? = some 0 := by
  obtain ⟨r, w, h1, h2, _, h4, _⟩ :=
    readline_line env henv.1 henv.2 fuel line rest heap hnl hlen hf
  refine ⟨r, w, line ++ [NEWLINE] ++ [0], h1, h2, h4, by simp, ?_, ?_⟩
  · rw [List.take_left']; simp
  · rw [List.getElem?_append_right (by simp)]; simp

theorem readline_result_is_the_line_witness :
    ∃ r w buf, readline (envOf 2 false) 10 (hello ++ NEWLINE :: world) heap0 = some r ∧
      r.ret = some ((hello.length + 1 : Nat) : Int) ∧ r.whole_buffer = some (w, buf) ∧
      buf.length = hello.length + 1 + 1 ∧ buf.take (hello.length + 1) = hello ++ [NEWLINE] ∧
      buf[hello.length + 1]? = some 0 :=
  readline_result_is_the_line (envOf 2 false) 10 hello world heap0
    (envOf_reliable 2 false) (by decide) (by decide) (by decide)

/-- C3, as the claim states it, fails: on a socket holding `"hello\nworld"`
the call returns 6, not 5, and the buffer holds `"hello\n"` and the terminator,
newline included; `"world"` is left unread.  And a line of 131072 bytes, which
does not exceed the ceiling, followed by its newline is not returned at all:
the call returns `-EOUTRANGE` and stores no buffer. -/
theorem readline_hello_world_returns_six :
    ((readline (envOf 512 false) 10 (hello ++ NEWLINE :: world) heap0).map
        (fun r => (r.ret, r.whole_buffer.map Prod.snd, r.sock))
      = some (some 6, some (hello ++ [NEWLINE, 0]), world) ∧
    (readline (envOf 512 false) 10 (hello ++ NEWLINE :: world) heap0).map (fun r => r.ret)
      ≠ some (some 5)) ∧
    (∃ r, readline (envOf 512 false) (MAXIMUM_BUFFER_LENGTH + 1)
        (List.replicate MAXIMUM_BUFFER_LENGTH 120 ++ NEWLINE :: world) heap0 = some r ∧
      r.ret = some (-34) ∧ r.whole_buffer = none) := by
  refine ⟨by decide, ?_⟩
  have henv := envOf_reliable 512 false
  obtain ⟨st1, h1⟩ := iterate_line_toolong (envOf 512 false) henv.1 henv.2
    (MAXIMUM_BUFFER_LENGTH + 1) (List.replicate MAXIMUM_BUFFER_LENGTH 120) world
    (firstState (List.replicate MAXIMUM_BUFFER_LENGTH 120 ++ NEWLINE :: world) heap0)
    (by simp [NEWLINE]) rfl
    (by show (0 : Int) ≤ _; omega)
    (by show (0 : Int) + _ > _; simp)
    (by show (MAXIMUM_BUFFER_LENGTH : Int) - 0 + 1 ≤ _; push_cast; omega)
  exact ⟨_, readline_of_cleanup (envOf 512 false) _ _ heap0 _ st1 (henv.2 _) h1, rfl, rfl⟩

/-- C3 (amended): for every line that, counted with its newline, does not
exceed the ceiling (`line.length + 1 ≤ 131072`), `readline` on a socket
holding `line ++ [newline] ++ rest` returns `line.length + 1` and the content
`line ++ [newline]`, newline included, followed by the terminator, and a
following raw read of `rest.length` bytes yields exactly `rest`; three calls in
a row on `"a\nb\nc\n"` yield `"a\n"`, `"b\n"`, `"c\n"` in order and leave the
socket empty. -/
theorem readline_returns_line_with_newline (env e2 e3 : Env) (fuel : Nat)
    (line rest : List Byte) (heap : Heap) (henv : Reliable env) (h2 : Reliable e2)
    (h3 : Reliable e3) (hnl : NEWLINE ∉ line)
    (hlen : line.length + 1 ≤ MAXIMUM_BUFFER_LENGTH) (hf : line.length + 1 ≤ fuel)
    (hf2 : 2 ≤ fuel) :
    (∃ r w, readline env fuel (line ++ NEWLINE :: rest) heap = some r ∧
      r.ret = some ((line.length + 1 : Nat) : Int) ∧
      r.whole_buffer = some (w, line ++ [NEWLINE] ++ [0]) ∧
      safe_read [.got rest.length] r.sock rest.length
        = some ((rest.length : Int), rest, [])) ∧
    (∃ r1 r2 r3 w1 w2 w3,
      readline env fuel [97, NEWLINE, 98, NEWLINE, 99, NEWLINE] heap = some r1 ∧
      readline e2 fuel r1.sock r1.heap = some r2 ∧
      readline e3 fuel r2.sock r2.heap = some r3 ∧
      r1.ret = some 2 ∧ r1.whole_buffer = some (w1, [97, NEWLINE, 0]) ∧
      r2.ret = some 2 ∧ r2.whole_buffer = some (w2, [98, NEWLINE, 0]) ∧
      r3.ret = some 2 ∧ r3.whole_buffer = some (w3, [99, NEWLINE, 0]) ∧
      r3.sock = []) := by
  constructor
  · obtain ⟨r, w, g1, g2, g3, g4, _⟩ :=
      readline_line env henv.1 henv.2 fuel line rest heap hnl hlen hf
    refine ⟨r, w, g1, g2, g4, ?_⟩
    rw [g3]
    simp [safe_read]
  · have hm : (1 : Nat) + 1 ≤ MAXIMUM_BUFFER_LENGTH := by decide
    obtain ⟨r1, w1, a1, a2, a3, a4, _⟩ :=
      readline_line env henv.1 henv.2 fuel [97] [98, NEWLINE, 99, NEWLINE] heap
        (by decide) hm hf2
    obtain ⟨r2, w2, b1, b2, b3, b4, _⟩ :=
      readline_line e2 h2.1 h2.2 fuel [98] [99, NEWLINE] r1.heap (by decide) hm hf2
    obtain ⟨r3, w3, c1, c2, c3, c4, _⟩ :=
      readline_line e3 h3.1 h3.2 fuel [99] [] r2.heap (by decide) hm hf2
    refine ⟨r1, r2, r3, w1, w2, w3, a1, ?_, ?_, a2, a4, b2, b4, c2, c4, c3⟩
    · rw [a3]; exact b1
    · rw [b3]; exact c1

theorem readline_returns_line_with_newline_witness :
    (∃ r w, readline (envOf 512 false) 10 (hello ++ NEWLINE :: world) heap0 = some r ∧
      r.ret = some ((hello.length + 1 : Nat) : Int) ∧
      r.whole_buffer = some (w, hello ++ [NEWLINE] ++ [0]) ∧
      safe_read [.got world.length] r.sock world.length
        = some ((world.length : Int), world, [])) ∧
    (∃ r1 r2 r3 w1 w2 w3,
      readline (envOf 512 false) 10 [97, NEWLINE, 98, NEWLINE, 99, NEWLINE] heap0 = some r1 ∧
      readline (envOf 1 false) 10 r1.sock r1.heap = some r2 ∧
      readline (envOf 3 true) 10 r2.sock r2.heap = some r3 ∧
      r1.ret = some 2 ∧ r1.whole_buffer = some (w1, [97, NEWLINE, 0]) ∧
      r2.ret = some 2 ∧ r2.whole_buffer = some (w2, [98, NEWLINE, 0]) ∧
      r3.ret = some 2 ∧ r3.whole_buffer = some (w3, [99, NEWLINE, 0]) ∧
      r3.sock = []) :=
  readline_returns_line_with_newline (envOf 512 false) (envOf 1 false) (envOf 3 true) 10
    hello world heap0 (envOf_reliable _ _) (envOf_reliable _ _) (envOf_reliable _ _)
    (by decide) (by decide) (by decide) (by decide)

/-- C4, as the claim states it, fails: on the one-byte stream `"a"` closed by
the peer, `readline` returns 0, which is not negative and is the very value it
returns when the connection is closed before any data. -/
theorem readline_closed_midline_returns_zero :
    (readline (envOf 1 true) 3 [97] heap0).map (fun r => (r.ret, r.whole_buffer, r.sock))
      = some (some 0, none, []) ∧
    (readline (envOf 1 true) 3 [] heap0).map (fun r => r.ret) = some (some 0) := by
  decide

/-- C4 (amended): for every non-empty stream without newline, of at most
131072 bytes and then closed by the peer, `readline` consumes the stream and
returns 0, the same value it returns for a connection closed before any data;
it stores no buffer and does not return the length of a truncated line. -/
theorem readline_closed_midline (env : Env) (fuel : Nat) (s : List Byte) (heap : Heap)
    (henv : Reliable env) (hc : env.closed = true) (hne : s ≠ []) (hnl : NEWLINE ∉ s)
    (hlen : s.length ≤ MAXIMUM_BUFFER_LENGTH) (hf : s.length + 1 ≤ fuel) :
    ∃ r r0, readline env fuel s heap = some r ∧ r.ret = some 0 ∧ r.whole_buffer = none ∧
      r.sock = [] ∧ readline env fuel [] heap = some r0 ∧ r0.ret = r.ret ∧
      r.ret ≠ some (s.length : Int) := by
  obtain ⟨st1, h1, h2⟩ := iterate_closed env henv.1 henv.2 hc fuel (firstState s heap) hnl
    (by show (0 : Int) + (s.length : Int) ≤ _; omega) hf
  obtain ⟨st0, g1, _⟩ := iterate_closed env henv.1 henv.2 hc fuel (firstState [] heap)
    (by simp [firstState]) (by simp [firstState]) (by show 0 + 1 ≤ fuel; omega)
  have hr := readline_of_cleanup env fuel s heap 0 st1 (henv.2 _) h1
  have hr0 := readline_of_cleanup env fuel [] heap 0 st0 (henv.2 _) g1
  refine ⟨_, _, hr, rfl, rfl, h2, hr0, rfl, ?_⟩
  have : 0 < s.length := List.length_pos.mpr hne
  show some (0 : Int) ≠ some (s.length : Int)
  intro e
  have := Option.some.inj e
  omega

theorem readline_closed_midline_witness :
    ∃ r r0, readline (envOf 2 true) 10 hello heap0 = some r ∧ r.ret = some 0 ∧
      r.whole_buffer = none ∧ r.sock = [] ∧ readline (envOf 2 true) 10 [] heap0 = some r0 ∧
      r0.ret = r.ret ∧ r.ret ≠ some (hello.length : Int) :=
  readline_closed_midline (envOf 2 true) 10 hello heap0 (envOf_reliable _ _) rfl (by decide)
    (by decide) (by decide) (by decide)

/-- C5 (too-long line): on a stream without newline that is longer than the
ceiling of 131072 bytes, for every schedule of peek lengths, `readline` returns
`-EOUTRANGE` and stores no line; and on a stream whose first newline lies
within the first 131072 bytes it does not return `-EOUTRANGE`. -/
theorem readline_too_long (env : Env) (fuel : Nat) (s line rest : List Byte) (heap : Heap)
    (henv : Reliable env) (hcode : 0 ≤ env.EOUTRANGE) (hs : NEWLINE ∉ s)
    (hlong : MAXIMUM_BUFFER_LENGTH < s.length) (hnl : NEWLINE ∉ line)
    (hlen : line.length + 1 ≤ MAXIMUM_BUFFER_LENGTH)
    (hf : MAXIMUM_BUFFER_LENGTH + 1 ≤ fuel) :
    (∃ r, readline env fuel s heap = some r ∧ r.ret = some (-env.EOUTRANGE) ∧
      r.whole_buffer = none) ∧
    (∃ r, readline env fuel (line ++ NEWLINE :: rest) heap = some r ∧
      r.ret ≠ some (-env.EOUTRANGE)) := by
  constructor
  · obtain ⟨st1, h1⟩ := iterate_toolong env henv.1 henv.2 fuel (firstState s heap) hs
      (by show (0 : Int) ≤ _; omega)
      (by show (0 : Int) + (s.length : Int) > _; omega)
      (by show (MAXIMUM_BUFFER_LENGTH : Int) - 0 + 1 ≤ _; omega)
    exact ⟨_, readline_of_cleanup env fuel s heap _ st1 (henv.2 _) h1, rfl, rfl⟩
  · obtain ⟨r, w, g1, g2, _⟩ :=
      readline_line env henv.1 henv.2 fuel line rest heap hnl hlen (by omega)
    refine ⟨r, g1, ?_⟩
    rw [g2]
    intro e
    have := Option.some.inj e
    push_cast at this
    omega

theorem readline_too_long_witness :
    (∃ r, readline (envOf 512 false) (MAXIMUM_BUFFER_LENGTH + 1)
        (List.replicate (MAXIMUM_BUFFER_LENGTH + 1) 120) heap0 = some r ∧
      r.ret = some (-(envOf 512 false).EOUTRANGE) ∧ r.whole_buffer = none) ∧
    (∃ r, readline (envOf 512 false) (MAXIMUM_BUFFER_LENGTH + 1) (hello ++ NEWLINE :: world)
        heap0 = some r ∧
      r.ret ≠ some (-(envOf 512 false).EOUTRANGE)) :=
  readline_too_long (envOf 512 false) (MAXIMUM_BUFFER_LENGTH + 1)
    (List.replicate (MAXIMUM_BUFFER_LENGTH + 1) 120) hello world heap0 (envOf_reliable _ _)
    (by decide) (by simp [NEWLINE]) (by simp) (by decide) (by decide) (le_refl _)

/-- C6 (`safe_write` delivers the whole buffer): for every buffer and every
sequence of outcomes of `write` (short counts, `EINTR` failures, other
failures), when `safe_write` returns without error its return value is the
length of the buffer and the receiver has observed exactly the bytes of the
buffer, in order, after what it had seen before; and `safe_write` does return
so, however many short writes and `EINTR` failures occur, whenever every
failure is `EINTR`, some `write` is answered with a count and the counts add up
to the length of the buffer or more. -/
theorem safe_write_delivers_buffer (evs : List WriteEv) (rx buffer : List Byte)
    (hv : ∀ ev ∈ evs, ev.valid = true) :
    (∀ (ret : Int) (rx1 : List Byte),
      safe_write evs rx buffer buffer.length = some (ret, rx1) → 0 ≤ ret →
      ret = (buffer.length : Int) ∧ rx1 = rx ++ buffer) ∧
    ((∀ e, WriteEv.fail e ∈ evs → e = EINTR) → (∃ c, WriteEv.sent c ∈ evs) →
      buffer.length ≤ sentTotal evs →
      safe_write evs rx buffer buffer.length
        = some ((buffer.length : Int), rx ++ buffer)) := by
  constructor
  · intro ret rx1 h hret
    have := safe_write_loop_spec evs rx buffer buffer.length buffer.length ret rx1 hv h hret
    rwa [List.take_length] at this
  · intro hf hs ht
    have := safe_write_loop_completes evs rx buffer buffer.length buffer.length hf hs ht
    rwa [List.take_length] at this

theorem safe_write_delivers_buffer_witness :
    safe_write [.sent 2, .fail EINTR, .sent 1, .fail EINTR, .sent 9] [7] [1, 2, 3, 4, 5]
        ([1, 2, 3, 4, 5] : List Byte).length
      = some ((([1, 2, 3, 4, 5] : List Byte).length : Int), [7] ++ [1, 2, 3, 4, 5]) :=
  (safe_write_delivers_buffer [.sent 2, .fail EINTR, .sent 1, .fail EINTR, .sent 9] [7]
    [1, 2, 3, 4, 5] (by decide)).2 (by intro e h; simpa using h) ⟨2, by simp⟩ (by decide)

/-- C7, at its failing input: on the stream `"a\n"`, when the two allocations
of the chain succeed and the allocation of the result buffer fails, `readline`
returns `-ENOMEMORY` without running the `CLEANUP` loop: the node and its data
block (blocks 0 and 1) are still live. -/
theorem readline_leaks_chain_when_result_alloc_fails :
    (readline { envOf 512 false with allocFails := fun k => k == 2 } 10 [97, 10] heap0).map
        (fun r => (r.ret, r.whole_buffer, r.heap.live))
      = some (some (-12), none, [1, 0]) := by
  decide

/-- C8, at its failing input: when the host resolves, `socket()` returns
descriptor 3 and `connect()` fails, `opensock` returns -1 and descriptor 3 is
still open. -/
theorem opensock_leaks_socket_when_connect_fails :
    opensock resolvAll { socket := some 3, connect := fun _ _ => false } "host" 80 [] = (-1, [3]) := by
  decide

/-- C9, as the claim states it, fails: `lookup_domain` takes
`gethostbyname_mutex` and `getpeer_string` takes `mutex`, two different locks,
and there is a schedule after which thread 0 is inside `gethostbyname` while
thread 1 is inside `gethostbyaddr`. -/
theorem forward_and_reverse_lookup_overlap :
    (lookup_domain resolvAll (some "host")).2.2.head? = some (.lock .gethostbyname_mutex) ∧
    (getpeer_string resolvAll (some 1) 64).2.head? = some (.lock .mutex) ∧
    ((Sys.init twoCallers).run [0, 0, 1, 1]).inProgress 0 .gethostbyname ∧
    ((Sys.init twoCallers).run [0, 0, 1, 1]).inProgress 1 .gethostbyaddr := by
  decide

/-- C9 (amended): in every state any schedule of any threads calling
`lookup_domain` and `getpeer_string` can reach, a thread inside `gethostbyname`
holds `gethostbyname_mutex` and a thread inside `gethostbyaddr` holds `mutex`,
so two forward lookups are never in progress at once, nor two reverse lookups;
and a thread that has finished its calls holds no lock. -/
theorem resolver_calls_exclusive_per_lock (calls : Nat → List Call) (sched : List Nat)
    (i : Nat) (r : Resolver) (h : ((Sys.init calls).run sched).inProgress i r) :
    ((Sys.init calls).run sched).owner
        (match r with
         | .gethostbyname => .gethostbyname_mutex
         | .gethostbyaddr => .mutex) = some i ∧
      (∀ j, ((Sys.init calls).run sched).inProgress j r → j = i) ∧
      (∀ j m, ((Sys.init calls).run sched).threads j = [] →
        ((Sys.init calls).run sched).owner m ≠ some j) := by
  have hinv := run_inv sched _ (init_inv calls)
  have ho := owner_of_inProgress _ hinv i r h
  refine ⟨?_, fun j hj => ?_, fun j m hj => no_owner_of_finished _ hinv j hj m⟩
  · cases r <;> exact ho
  · have hoj := owner_of_inProgress _ hinv j r hj
    rw [ho] at hoj
    exact (Option.some.inj hoj).symm

theorem resolver_calls_exclusive_per_lock_witness :
    ((Sys.init twoCallers).run [0, 0, 1, 1]).owner .gethostbyname_mutex = some 0 ∧
      (∀ j, ((Sys.init twoCallers).run [0, 0, 1, 1]).inProgress j .gethostbyname → j = 0) ∧
      (∀ j m, ((Sys.init twoCallers).run [0, 0, 1, 1]).threads j = [] →
        ((Sys.init twoCallers).run [0, 0, 1, 1]).owner m ≠ some j) :=
  resolver_calls_exclusive_per_lock twoCallers [0, 0, 1, 1] 0 .gethostbyname (by decide)

/-- C10 (bounded consumption): for every stream and every environment, after
any number of passes of the loop the chunks of the chain hold at most 131072
bytes, at most 131072 bytes have been removed from the socket and at most
131073 peeks have been made; the loop has been left after 131073 passes at the
latest, and `readline` itself, given that much fuel, ends having removed at
most 131072 bytes with at most 131073 peeks. -/
theorem readline_bounded (env : Env) (sock : List Byte) (heap : Heap) (k extra : Nat) :
    (chainLen (iterate env k (firstState sock heap)).2.chain ≤ MAXIMUM_BUFFER_LENGTH ∧
      (∃ pre, sock = pre ++ (iterate env k (firstState sock heap)).2.sock ∧
        pre.length ≤ MAXIMUM_BUFFER_LENGTH) ∧
      (iterate env k (firstState sock heap)).2.peeks ≤ MAXIMUM_BUFFER_LENGTH + 1) ∧
    (iterate env (MAXIMUM_BUFFER_LENGTH + 1) (firstState sock heap)).1 ≠ .running ∧
    (∃ r pre, readline env (MAXIMUM_BUFFER_LENGTH + 1 + extra) sock heap = some r ∧
      sock = pre ++ r.sock ∧ pre.length ≤ MAXIMUM_BUFFER_LENGTH ∧
      r.peeks ≤ MAXIMUM_BUFFER_LENGTH + 1) := by
  have hall : ∀ n, chainLen (iterate env n (firstState sock heap)).2.chain
        ≤ MAXIMUM_BUFFER_LENGTH ∧
      (∃ pre, sock = pre ++ (iterate env n (firstState sock heap)).2.sock ∧
        pre.length ≤ MAXIMUM_BUFFER_LENGTH) ∧
      (iterate env n (firstState sock heap)).2.peeks ≤ MAXIMUM_BUFFER_LENGTH + 1 := by
    intro n
    obtain ⟨⟨⟨pre, hs, hpre⟩, hmax, hpk⟩, _⟩ :=
      iterate_inv env sock n (firstState sock heap) (firstState_inv sock heap)
    exact ⟨hmax, ⟨pre, hs, by omega⟩, by omega⟩
  refine ⟨hall k, iterate_stops env sock heap _ (le_refl _), ?_⟩
  cases ha : env.allocFails heap.calls with
  | true =>
    have hr : readline env (MAXIMUM_BUFFER_LENGTH + 1 + extra) sock heap
        = some { ret := some (-env.ENOMEMORY), whole_buffer := none, sock := sock,
                 heap := { heap with calls := heap.calls + 1 }, peeks := 0 } := by
      simp only [readline, safecalloc, safemalloc, ha, if_true]
    exact ⟨_, [], hr, rfl, Nat.zero_le _, Nat.zero_le _⟩
  | false =>
    obtain ⟨r, hr, hsock, hpeeks⟩ :=
      readline_of_iterate env (MAXIMUM_BUFFER_LENGTH + 1 + extra) sock heap ha
        (iterate_stops env sock heap _ (by omega))
    obtain ⟨_, ⟨pre, hs, hpre⟩, hpk⟩ := hall (MAXIMUM_BUFFER_LENGTH + 1 + extra)
    exact ⟨r, pre, hr, by rw [hsock]; exact hs, hpre, by rw [hpeeks]; exact hpk⟩

end Sock
